import Mathlib

/-!
Verification development for the x2polygons polygon-distance module.

The definitions below are a shallow embedding of `x2polygons/polygon_distance.py`
and the parts of `x2polygons/geometry.py` it uses.  Machine floats are modelled
by exact arithmetic in a linear ordered field (`ℚ` for executable instances,
`ℝ` where the source uses `math.sqrt`/`math.acos`); Python's `round(x, 3)` and
`round(x)` (banker's rounding) are modelled exactly by `roundHalfEven`.
-/

set_option linter.unusedSectionVars false

namespace X2Polygons

/-- Turn direction labels stored in `turn["direction"]`: `'L'`, `'R'`, `'-'`. -/
inductive TurnDir
  | L
  | R
  | Dash
deriving DecidableEq

/-- Digitisation direction labels: `'CCW'`, `'CW'`. -/
inductive DigDir
  | CCW
  | CW
deriving DecidableEq

variable {α : Type} [LinearOrderedField α] [FloorRing α]

/-- Python's `round` to an integer: round half to even (banker's rounding). -/
def roundHalfEven (x : α) : ℤ :=
  if x - ⌊x⌋ < 1 / 2 then ⌊x⌋
  else if 1 / 2 < x - ⌊x⌋ then ⌊x⌋ + 1
  else if Even ⌊x⌋ then ⌊x⌋ else ⌊x⌋ + 1

/-- Python's `round(x, 3)`: round to three decimal places. -/
def round3 (x : α) : α :=
  (roundHalfEven (x * 1000) : α) / 1000

/-- `round` is the identity on integers. -/
theorem roundHalfEven_intCast (z : ℤ) : roundHalfEven ((z : α)) = z := by
  unfold roundHalfEven
  rw [Int.floor_intCast]
  norm_num

/-- `round(x, 3)` is the identity on exact 3-decimal values. -/
theorem round3_of_int_mul (x : α) (z : ℤ) (h : x * 1000 = (z : α)) : round3 x = x := by
  unfold round3
  rw [h, roundHalfEven_intCast, ← h]
  exact mul_div_cancel_right₀ x (by norm_num)

/-- Values in `[0, 1/2)` round to 0. -/
theorem roundHalfEven_of_small (x : α) (h0 : 0 ≤ x) (h1 : x < 1 / 2) :
    roundHalfEven x = 0 := by
  unfold roundHalfEven
  have hf : ⌊x⌋ = 0 := by
    rw [Int.floor_eq_zero_iff]
    constructor
    · exact h0
    · linarith
  rw [hf]
  push_cast
  rw [if_pos (by linarith)]

/-- `round(x, 3) = 0` whenever `0 ≤ 1000·x < 1/2`. -/
theorem round3_small (x : α) (h0 : 0 ≤ x * 1000) (h1 : x * 1000 < 1 / 2) :
    round3 x = 0 := by
  unfold round3
  rw [roundHalfEven_of_small (x * 1000) h0 h1]
  norm_num

/-- `round(0, 3) = 0`. -/
theorem round3_zero : round3 (0 : α) = 0 :=
  round3_of_int_mul 0 0 (by norm_num)

/-- `round(1, 3) = 1`. -/
theorem round3_one : round3 (1 : α) = 1 :=
  round3_of_int_mul 1 1000 (by norm_num)

/-- The `turn` dictionary built by `turning_function`: parallel lists of turn
angles, (normalised) edge lengths and turn directions, plus the digitisation
direction. -/
structure TurnFunc (α : Type) where
  angles : List α
  lengths : List α
  direction : List TurnDir
  digitisation_direction : DigDir
deriving DecidableEq

/-- `l[i] += v` on a list (no-op when `i` is out of range, which the source
never does). -/
def addAt (i : Nat) (v : α) (l : List α) : List α :=
  l.set i (l.getD i 0 + v)

/-- The backward collinearity scan of `turning_function`
(`for i in range(len(lengths)-1, 0, -1): if direction[i] == '-':
lengths[i-1] += lengths[i]`).  `backFold dirs k ls` processes the indices
`k, k-1, ..., 1` in that order. -/
def backFold (dirs : List TurnDir) : Nat → List α → List α
  | 0, ls => ls
  | i + 1, ls =>
      backFold dirs i
        (if dirs.getD (i + 1) .Dash = .Dash then addAt i (ls.getD (i + 1) 0) ls else ls)

/-- The scan `for i in range(len(lengths)-1, 0, -1): if direction[i] != '-': break`
finding the fold target for a leading `'-'` entry: the last index in
`[1, n-1]` whose direction is not `'-'` (`none` when there is none, in which
case the source's `while not found` loop never terminates). -/
def lastNonDash (dirs : List TurnDir) (n : Nat) : Option Nat :=
  ((List.range' 1 (n - 1)).reverse).find? (fun i => decide (dirs.getD i .Dash ≠ .Dash))

/-- Deleting every index marked `'-'` from a parallel list (the
`indices_to_delete` loop, which deletes exactly the positions whose direction
is `'-'`). -/
def keepNonDash {β : Type} (dirs : List TurnDir) (l : List β) : List β :=
  ((l.zip dirs).filter (fun p => decide (p.2 ≠ .Dash))).map Prod.fst

/-- The "Post-Process the COLINEARITY" block of `turning_function`
(lines 274-301): fold each `'-'` entry's length into the previous entry
scanning backwards, fold a leading `'-'` entry's length into the last
non-`'-'` entry, then delete all `'-'` entries from the three parallel lists.
When `direction[0] = '-'` and no non-`'-'` entry exists the source diverges
(`while not found` never exits); the model returns its input unchanged there. -/
def postProcessColinearity (t : TurnFunc α) : TurnFunc α :=
  let n := t.lengths.length
  let ls := backFold t.direction (n - 1) t.lengths
  if t.direction.getD 0 .Dash = .Dash then
    match lastNonDash t.direction n with
    | some j =>
        let ls2 := addAt j (ls.getD 0 0) ls
        { t with
            angles := keepNonDash t.direction t.angles
            lengths := keepNonDash t.direction ls2
            direction := keepNonDash t.direction t.direction }
    | none => t
  else
    { t with
        angles := keepNonDash t.direction t.angles
        lengths := keepNonDash t.direction ls
        direction := keepNonDash t.direction t.direction }

/-- The exact divergence condition of the "Post-Process the COLINEARITY"
block: when the leading direction is `'-'` and no other non-`'-'` direction
exists, the source's `while(not found)` fold-target search (its inner `for`
loop finds nothing and never sets `found`) runs forever.
`postProcessColinearity` is a faithful model of the source exactly on the
records where `merge_hangs` is `false`. -/
def merge_hangs (t : TurnFunc α) : Bool :=
  decide (t.direction.getD 0 .Dash = .Dash) &&
    (lastNonDash t.direction t.lengths.length).isNone

/-- The cumulative-length ("piece_wise") array of a lengths list: prefix sums
starting at `0` (`piece_wise_lengths[i] = piece_wise_lengths[i-1] + lengths[i-1]`). -/
def piece_wise (l : List α) : List α :=
  l.scanl (· + ·) 0

/-- The merged breakpoint sequence of one rotation step: concatenate the two
cumulative arrays, sort ascending, `pop(0)` and `pop(len-1)`, then round each
remaining entry to 3 decimals. -/
def combined_breakpoints (pwa pwb : List α) : List α :=
  ((((pwa ++ pwb).insertionSort (· ≤ ·)).drop 1).dropLast).map round3

/-- The interval search `for j in range(1, len(pw)): if pw[j-1] < x <= pw[j]:
index = j-1; break`; when no interval matches, the index keeps its previous
value `fb`. -/
def interval_index (pw : List α) (x : α) (fb : Nat) : Nat :=
  match (List.range' 1 (pw.length - 1)).find?
      (fun j => decide (pw.getD (j - 1) 0 < x ∧ x ≤ pw.getD j 0)) with
  | some j => j - 1
  | none => fb

/-- The angular-cost accumulation loop of `coincide_turning_functions`:
walk the breakpoints, track the current interval index of each function
(initially `1`, kept when no interval matches), and accumulate
`abs(a_angles[index_a] - b_angles[index_b])`. -/
def angle_cost_loop (aAng bAng pwa pwb : List α) : List α → Nat → Nat → α → α
  | [], _, _, acc => acc
  | x :: rest, ia, ib, acc =>
      let ia' := interval_index pwa x ia
      let ib' := interval_index pwb x ib
      angle_cost_loop aAng bAng pwa pwb rest ia' ib'
        (acc + |aAng.getD ia' 0 - bAng.getD ib' 0|)

/-- The angular cost of one rotation step of `coincide_turning_functions`:
the loop `for i in range(1, len(combined_piece_wise_lengths))` summing
`abs(a_turn["angles"][index_a] - b_turn["angles"][index_b])`. -/
def rotation_cost (aAng bAng pwa pwb : List α) : α :=
  angle_cost_loop aAng bAng pwa pwb ((combined_breakpoints pwa pwb).drop 1) 1 1 0

/-- `min_distance_snapshot`: deep copies of the two (rotated) turn functions,
the scalar angular cost, the two cumulative arrays and the merged breakpoints
of the best rotation found so far. -/
structure Snapshot (α : Type) where
  a : TurnFunc α
  b : TurnFunc α
  distance : α
  piece_wise_a : List α
  piece_wise_b : List α
  combined_piece_wise : List α
deriving DecidableEq

/-- `pop(0)` followed by `append`: one cyclic rotation step of a list.
(The source only applies it to nonempty lists.) -/
def pop_append {β : Type} (l : List β) : List β :=
  match l with
  | [] => []
  | x :: xs => xs ++ [x]

/-- One "SHIFT Polygon" step: rotate the angle and length sequences of a turn
function in place by popping the head and appending it. -/
def shift_turn (t : TurnFunc α) : TurnFunc α :=
  { t with angles := pop_append t.angles, lengths := pop_append t.lengths }

/-- `if(distance < min_distance): save a snapshot`. -/
def update_snapshot (a b : TurnFunc α) (dist : α) (pwa pwb cbs : List α)
    (mind : α) (snap : Option (Snapshot α)) : α × Option (Snapshot α) :=
  if dist < mind then (dist, some ⟨a, b, dist, pwa, pwb, cbs⟩) else (mind, snap)

/-- The "SHIFT Polygon A" sweep: `k` remaining rotation steps of `a`, with
`b` (and its cumulative array `pwb`, computed once before the loop) fixed.
Returns the final state of `a`, the running minimum and the best snapshot. -/
def sweep_a (b : TurnFunc α) (pwb : List α) :
    Nat → TurnFunc α → α → Option (Snapshot α) → TurnFunc α × α × Option (Snapshot α)
  | 0, a, mind, snap => (a, mind, snap)
  | k + 1, a, mind, snap =>
      let pwa := piece_wise a.lengths
      let cbs := combined_breakpoints pwa pwb
      let dist := rotation_cost a.angles b.angles pwa pwb
      let p := update_snapshot a b dist pwa pwb cbs mind snap
      sweep_a b pwb k (shift_turn a) p.1 p.2

/-- The "SHIFT Polygon B" sweep: `k` remaining rotation steps of `b`, with
`a` (and `pwa`, computed once before the loop) fixed, continuing to accumulate
into the same running minimum. -/
def sweep_b (a : TurnFunc α) (pwa : List α) :
    Nat → TurnFunc α → α → Option (Snapshot α) → TurnFunc α × α × Option (Snapshot α)
  | 0, b, mind, snap => (b, mind, snap)
  | k + 1, b, mind, snap =>
      let pwb := piece_wise b.lengths
      let cbs := combined_breakpoints pwa pwb
      let dist := rotation_cost a.angles b.angles pwa pwb
      let p := update_snapshot a b dist pwa pwb cbs mind snap
      sweep_b a pwa k (shift_turn b) p.1 p.2

/-- `coincide_turning_functions(a_turn, b_turn)`: try every cyclic rotation of
`a` against `b`, then every cyclic rotation of `b` against the (by then fully
rotated) `a`, tracking the minimum angular cost (`min_distance = 10**10`
initially).  The source mutates `a_turn`/`b_turn` in place; the model returns
their final states together with the best snapshot (`none` models the
`NameError` when no rotation step ever ran). -/
def coincide_turning_functions (a_turn b_turn : TurnFunc α) :
    TurnFunc α × TurnFunc α × Option (Snapshot α) :=
  let pwb := piece_wise b_turn.lengths
  let ra := sweep_a b_turn pwb a_turn.lengths.length a_turn (10 ^ 10) none
  let pwa := piece_wise ra.1.lengths
  let rb := sweep_b ra.1 pwa b_turn.lengths.length b_turn ra.2.1 ra.2.2
  (ra.1, rb.1, rb.2.2)

/-- `normalise_turn_function`: rescale the angles by their total and round to
3 decimals; round the lengths to 3 decimals. -/
def normalise_turn_function (t : TurnFunc α) : TurnFunc α :=
  let total := t.angles.sum
  { t with
      angles := t.angles.map (fun a => round3 (a / total))
      lengths := t.lengths.map round3 }

/-- `switch_to_cw`: reverse the list, then pop its head and append it. -/
def switch_to_cw (l : List α) : List α :=
  pop_append l.reverse

/-- The "SHIFT Lengths to Next (+1)" block of `turning_function_distance`:
`lengths[0] = lengths[-1]` and every other entry moves one slot to the right
(a one-step right rotation).  Empty input models the source's `IndexError`. -/
def shift_lengths_right (l : List α) : List α :=
  match l.getLast? with
  | none => []
  | some z => z :: l.dropLast

/-- The SPEC's description of one rotation step's cost (for comparison with
the source's `rotation_cost`): sum `|A.angle − B.angle|` only over merged
breakpoints *strictly between 0 and 1*, with the same merge / drop / round
preprocessing and the same half-open interval lookup. -/
def spec_interior_cost (aAng bAng pwa pwb : List α) : α :=
  (((combined_breakpoints pwa pwb).filter (fun x => decide (0 < x ∧ x < 1))).map
    (fun x => |aAng.getD (interval_index pwa x 1) 0 - bAng.getD (interval_index pwb x 1) 0|)).sum

/-! ### Rotation bookkeeping of the alignment sweeps -/

theorem pop_append_eq_rotate {β : Type} (l : List β) : pop_append l = l.rotate 1 := by
  cases l with
  | nil => rfl
  | cons x xs => simp [pop_append, List.rotate_cons_succ]

theorem shift_turn_angles (t : TurnFunc α) : (shift_turn t).angles = t.angles.rotate 1 := by
  simp [shift_turn, pop_append_eq_rotate]

theorem shift_turn_lengths (t : TurnFunc α) : (shift_turn t).lengths = t.lengths.rotate 1 := by
  simp [shift_turn, pop_append_eq_rotate]

/-- The state of `a` after `k` steps of the A sweep: both sequences rotated by `k`. -/
theorem sweep_a_state (b : TurnFunc α) (pwb : List α) :
    ∀ (k : Nat) (a : TurnFunc α) (mind : α) (snap : Option (Snapshot α)),
      (sweep_a b pwb k a mind snap).1 =
        { a with angles := a.angles.rotate k, lengths := a.lengths.rotate k } := by
  intro k
  induction k with
  | zero => intro a mind snap; simp [sweep_a]
  | succ n ih =>
      intro a mind snap
      rw [sweep_a, ih]
      simp [shift_turn, pop_append_eq_rotate, List.rotate_rotate, Nat.add_comm]

/-- The state of `b` after `k` steps of the B sweep: both sequences rotated by `k`. -/
theorem sweep_b_state (a : TurnFunc α) (pwa : List α) :
    ∀ (k : Nat) (b : TurnFunc α) (mind : α) (snap : Option (Snapshot α)),
      (sweep_b a pwa k b mind snap).1 =
        { b with angles := b.angles.rotate k, lengths := b.lengths.rotate k } := by
  intro k
  induction k with
  | zero => intro b mind snap; simp [sweep_b]
  | succ n ih =>
      intro b mind snap
      rw [sweep_b, ih]
      simp [shift_turn, pop_append_eq_rotate, List.rotate_rotate, Nat.add_comm]

/-- After `coincide_turning_functions`, each input's sequences have been rotated
by exactly their own length, i.e. restored: the pop/append rotation completes a
full cycle over the sweep. -/
theorem coincide_restores (a b : TurnFunc α)
    (ha : a.angles.length = a.lengths.length) (hb : b.angles.length = b.lengths.length) :
    (coincide_turning_functions a b).1 = a ∧ (coincide_turning_functions a b).2.1 = b := by
  constructor
  · show (sweep_a b _ a.lengths.length a _ none).1 = a
    rw [sweep_a_state]
    have h1 : a.angles.rotate a.lengths.length = a.angles := by
      rw [← ha, List.rotate_length]
    have h2 : a.lengths.rotate a.lengths.length = a.lengths := by
      rw [List.rotate_length]
    rw [h1, h2]
  · show (sweep_b _ _ b.lengths.length b _ _).1 = b
    rw [sweep_b_state]
    have h1 : b.angles.rotate b.lengths.length = b.angles := by
      rw [← hb, List.rotate_length]
    have h2 : b.lengths.rotate b.lengths.length = b.lengths := by
      rw [List.rotate_length]
    rw [h1, h2]

/-- Structure of the merged breakpoint list: whenever both cumulative arrays
contain `0` and `1` and all their entries lie in `[0, 1]` (as `piece_wise` of
normalised lengths summing exactly to 1 produces), the sorted concatenation
begins `0, 0, ...` and ends `..., 1, 1`, so after the two pops the remaining
sequence still begins with a `0` and still contains a `1`. -/
theorem combined_breakpoints_keeps_ends (pwa pwb : List α)
    (h0a : (0 : α) ∈ pwa) (h0b : (0 : α) ∈ pwb)
    (h1a : (1 : α) ∈ pwa) (h1b : (1 : α) ∈ pwb)
    (hbd : ∀ x ∈ pwa ++ pwb, 0 ≤ x ∧ x ≤ 1) :
    ∃ t, combined_breakpoints pwa pwb = 0 :: t ∧ (1 : α) ∈ t := by
  classical
  have hperm : List.Perm ((pwa ++ pwb).insertionSort (· ≤ ·)) (pwa ++ pwb) :=
    List.perm_insertionSort _ _
  have hsort : ((pwa ++ pwb).insertionSort (· ≤ ·)).Sorted (· ≤ ·) :=
    List.sorted_insertionSort _ _
  have hbdL : ∀ x ∈ (pwa ++ pwb).insertionSort (· ≤ ·), 0 ≤ x ∧ x ≤ 1 :=
    fun x hx => hbd x (hperm.mem_iff.mp hx)
  have hc0 : 2 ≤ ((pwa ++ pwb).insertionSort (· ≤ ·)).count 0 := by
    rw [hperm.count_eq, List.count_append]
    have ha : 1 ≤ pwa.count 0 := List.count_pos_iff.mpr h0a
    have hb : 1 ≤ pwb.count 0 := List.count_pos_iff.mpr h0b
    omega
  have hc1 : 2 ≤ ((pwa ++ pwb).insertionSort (· ≤ ·)).count 1 := by
    rw [hperm.count_eq, List.count_append]
    have ha : 1 ≤ pwa.count 1 := List.count_pos_iff.mpr h1a
    have hb : 1 ≤ pwb.count 1 := List.count_pos_iff.mpr h1b
    omega
  obtain ⟨h, t1, hL⟩ : ∃ h t1, (pwa ++ pwb).insertionSort (· ≤ ·) = h :: t1 := by
    cases hL : (pwa ++ pwb).insertionSort (· ≤ ·) with
    | nil => rw [hL] at hc0; simp at hc0
    | cons h t => exact ⟨h, t, rfl⟩
  rw [hL] at hsort hc0 hc1 hbdL
  have hhd : h = 0 := by
    have hmem : (0 : α) ∈ h :: t1 := by
      have : 0 < (h :: t1).count (0 : α) := by omega
      exact List.count_pos_iff.mp this
    rcases List.mem_cons.mp hmem with h0 | h0
    · exact h0.symm
    · have h1 := (List.sorted_cons.mp hsort).1 0 h0
      have h2 := (hbdL h (List.mem_cons_self _ _)).1
      linarith
  subst hhd
  have hsort1 : t1.Sorted (· ≤ ·) := (List.sorted_cons.mp hsort).2
  have hc0t : 1 ≤ t1.count (0 : α) := by
    rw [List.count_cons_self] at hc0
    omega
  have hc1t : 2 ≤ t1.count (1 : α) := by
    rw [List.count_cons_of_ne (by norm_num)] at hc1
    exact hc1
  obtain ⟨h2, t2, hT⟩ : ∃ h2 t2, t1 = h2 :: t2 := by
    cases hT : t1 with
    | nil => rw [hT] at hc0t; simp at hc0t
    | cons h2 t2 => exact ⟨h2, t2, rfl⟩
  rw [hT] at hsort1 hc0t hc1t
  have hhd2 : h2 = 0 := by
    have hmem : (0 : α) ∈ h2 :: t2 := by
      have : 0 < (h2 :: t2).count (0 : α) := by omega
      exact List.count_pos_iff.mp this
    rcases List.mem_cons.mp hmem with h0 | h0
    · exact h0.symm
    · have hle := (List.sorted_cons.mp hsort1).1 0 h0
      have hge := (hbdL h2 (by rw [hT]; exact List.mem_cons_of_mem _ (List.mem_cons_self _ _))).1
      linarith
  subst hhd2
  have hc1t2 : 2 ≤ t2.count (1 : α) := by
    rw [List.count_cons_of_ne (by norm_num)] at hc1t
    exact hc1t
  obtain ⟨h3, t3, hU⟩ : ∃ h3 t3, t2 = h3 :: t3 := by
    cases hU : t2 with
    | nil => rw [hU] at hc1t2; simp at hc1t2
    | cons h3 t3 => exact ⟨h3, t3, rfl⟩
  refine ⟨((h3 :: t3).dropLast).map round3, ?_, ?_⟩
  · unfold combined_breakpoints
    rw [hL, hT, hU]
    rw [List.drop_one, List.tail_cons]
    rw [List.dropLast_cons₂]
    rw [List.map_cons, round3_zero]
  · have hcount : 1 ≤ ((h3 :: t3).dropLast).count (1 : α) := by
      have hsplit := @List.dropLast_append_getLast _ (h3 :: t3) (by simp)
      have : (h3 :: t3).count (1 : α)
          = ((h3 :: t3).dropLast).count 1 + [(h3 :: t3).getLast (by simp)].count 1 := by
        rw [← List.count_append, hsplit]
      have hone : [(h3 :: t3).getLast (by simp)].count (1 : α) ≤ 1 := by
        simp [List.count_cons]
        split <;> omega
      rw [hU] at hc1t2
      omega
    have hmem : (1 : α) ∈ (h3 :: t3).dropLast := List.count_pos_iff.mp (by omega)
    have := List.mem_map_of_mem round3 hmem
    rw [round3_one] at this
    exact this

/-! ### Claim C4: per-rotation cost versus the spec's strictly-interior sum -/

/-- C4, counterexample.  The claim says the per-rotation cost sums only over
breakpoints strictly between 0 and 1.  With `a = (angles [1,2], lengths
[1/2,1/2])` and `b = (angles [1,3], lengths [1/2,1/2])`, the merged sequence
after the two pops is `[0, 1/2, 1/2, 1]`: the loop skips the leading 0 but the
retained duplicate 1 contributes `|2 - 3| = 1`, so the code's cost is 1 while
the strictly-interior sum is 0. -/
theorem c4_counterexample :
    rotation_cost ([1, 2] : List ℚ) [1, 3] (piece_wise [1/2, 1/2]) (piece_wise [1/2, 1/2]) = 1 ∧
    spec_interior_cost ([1, 2] : List ℚ) [1, 3] (piece_wise [1/2, 1/2])
      (piece_wise [1/2, 1/2]) = 0 := by
  norm_num [rotation_cost, spec_interior_cost, combined_breakpoints, piece_wise, List.scanl,
    List.insertionSort, List.orderedInsert, round3, roundHalfEven, List.dropLast,
    angle_cost_loop, interval_index, List.range', List.find?]

/-- C4, amended.  One rotation step concatenates and sorts the two
cumulative-length arrays, pops the first element and the last, and rounds to 3
decimals.  When both arrays contain the endpoints 0 and 1 and all entries lie
in `[0, 1]` — as `piece_wise` of exactly-normalised lengths produces — the two
popped elements are one duplicate 0 and one duplicate 1, and the remaining
sequence still begins with a 0 (which the cost loop, starting at index 1,
skips) and still contains a 1 (which the loop processes).  For two-interval
functions over `[0, 1/2, 1]` with arbitrary angles, the processed breakpoint 1
falls in the final interval of each function, so the cost equals the spec's
strictly-interior sum plus the absolute angle difference of the two final
intervals. -/
theorem c4_amended (pwa pwb : List ℚ) (a0 a1 b0 b1 : ℚ)
    (h0a : (0 : ℚ) ∈ pwa) (h0b : (0 : ℚ) ∈ pwb)
    (h1a : (1 : ℚ) ∈ pwa) (h1b : (1 : ℚ) ∈ pwb)
    (hbd : ∀ x ∈ pwa ++ pwb, 0 ≤ x ∧ x ≤ 1) :
    (∃ t, combined_breakpoints pwa pwb = 0 :: t ∧ (1 : ℚ) ∈ t) ∧
    rotation_cost [a0, a1] [b0, b1] (piece_wise [1/2, 1/2]) (piece_wise [1/2, 1/2]) =
      spec_interior_cost [a0, a1] [b0, b1] (piece_wise [1/2, 1/2])
        (piece_wise [1/2, 1/2]) + |a1 - b1| := by
  constructor
  · exact combined_breakpoints_keeps_ends pwa pwb h0a h0b h1a h1b hbd
  · have hc : combined_breakpoints (piece_wise [(1:ℚ)/2, 1/2]) (piece_wise [1/2, 1/2])
        = [0, 1/2, 1/2, 1] := by
      norm_num [combined_breakpoints, piece_wise, List.scanl, List.insertionSort,
        List.orderedInsert, round3, roundHalfEven, List.dropLast]
    have h1 : ∀ fb : Nat, interval_index (piece_wise [(1:ℚ)/2, 1/2]) (1/2) fb = 0 := by
      intro fb
      norm_num [interval_index, piece_wise, List.scanl, List.range', List.find?]
    have h3 : ∀ fb : Nat, interval_index (piece_wise [(1:ℚ)/2, 1/2]) 1 fb = 1 := by
      intro fb
      norm_num [interval_index, piece_wise, List.scanl, List.range', List.find?]
    rw [rotation_cost, spec_interior_cost, hc]
    norm_num [angle_cost_loop, h1, h3]

/-- C4 witness: both cumulative arrays `piece_wise [1/2, 1/2] = [0, 1/2, 1]`,
angles `[1, 2]` and `[1, 3]`: the merged-popped-rounded sequence begins with 0
and retains a 1, and the rotation cost is the interior sum plus `|2 - 3|`. -/
theorem c4_amended_witness :
    (∃ t, combined_breakpoints (piece_wise [(1:ℚ)/2, 1/2]) (piece_wise [(1:ℚ)/2, 1/2])
        = 0 :: t ∧ (1 : ℚ) ∈ t) ∧
    rotation_cost [(1:ℚ), 2] [1, 3] (piece_wise [1/2, 1/2]) (piece_wise [1/2, 1/2]) =
      spec_interior_cost [(1:ℚ), 2] [1, 3] (piece_wise [1/2, 1/2])
        (piece_wise [1/2, 1/2]) + |(2:ℚ) - 3| :=
  c4_amended (piece_wise [1/2, 1/2]) (piece_wise [1/2, 1/2]) 1 2 1 3
    (by norm_num [piece_wise, List.scanl])
    (by norm_num [piece_wise, List.scanl])
    (by norm_num [piece_wise, List.scanl])
    (by norm_num [piece_wise, List.scanl])
    (by
      intro x hx
      simp [piece_wise, List.scanl] at hx
      rcases hx with h | h | h | h | h | h <;> rw [h] <;> norm_num)

/-! ### Claim C8: the alignment engine does not consume its inputs -/

/-- C8, counterexample.  The claim says that after `coincide_turning_functions`
returns, the angle and length sequences of the arguments end up rotated away
from their call-time state (consumed), so a caller must retain a copy.  In
fact each sweep performs exactly `len(lengths)` pop/append rotations — a full
cycle — so the inputs are returned in their original state: here a concrete
pair of turn functions whose final states equal their initial states. -/
theorem c8_counterexample :
    (coincide_turning_functions
        (⟨[10, 20], [1/2, 1/2], [.L, .L], .CCW⟩ : TurnFunc ℚ)
        (⟨[30, 40, 50], [1/4, 1/4, 1/2], [.L, .L, .L], .CCW⟩ : TurnFunc ℚ)).1 =
      (⟨[10, 20], [1/2, 1/2], [.L, .L], .CCW⟩ : TurnFunc ℚ) ∧
    (coincide_turning_functions
        (⟨[10, 20], [1/2, 1/2], [.L, .L], .CCW⟩ : TurnFunc ℚ)
        (⟨[30, 40, 50], [1/4, 1/4, 1/2], [.L, .L, .L], .CCW⟩ : TurnFunc ℚ)).2.1 =
      (⟨[30, 40, 50], [1/4, 1/4, 1/2], [.L, .L, .L], .CCW⟩ : TurnFunc ℚ) := by
  exact coincide_restores _ _ rfl rfl

/-- C8, amended.  The sequences are rotated in place during the search, but the
rotation completes a full cycle: whenever the angle and length lists have equal
length (as every `turning_function` result does), both arguments are returned
in exactly their call-time state, so no defensive copy is needed. -/
theorem c8_amended (a b : TurnFunc ℝ)
    (ha : a.angles.length = a.lengths.length) (hb : b.angles.length = b.lengths.length) :
    (coincide_turning_functions a b).1 = a ∧ (coincide_turning_functions a b).2.1 = b :=
  coincide_restores a b ha hb

/-- C8, witness for the amended theorem. -/
theorem c8_amended_witness :
    ((⟨[90], [1], [.L], .CCW⟩ : TurnFunc ℝ).angles.length =
        (⟨[90], [1], [.L], .CCW⟩ : TurnFunc ℝ).lengths.length) ∧
    (coincide_turning_functions (⟨[90], [1], [.L], .CCW⟩ : TurnFunc ℝ)
        (⟨[45], [1], [.R], .CW⟩ : TurnFunc ℝ)).1 = ⟨[90], [1], [.L], .CCW⟩ ∧
    (coincide_turning_functions (⟨[90], [1], [.L], .CCW⟩ : TurnFunc ℝ)
        (⟨[45], [1], [.R], .CW⟩ : TurnFunc ℝ)).2.1 = ⟨[45], [1], [.R], .CW⟩ := by
  refine ⟨rfl, ?_⟩
  exact c8_amended ⟨[90], [1], [.L], .CCW⟩ ⟨[45], [1], [.R], .CW⟩ rfl rfl

/-! ### Claim C3: the collinear merge -/

theorem addAt_length (i : Nat) (v : α) (l : List α) : (addAt i v l).length = l.length := by
  simp [addAt]

theorem backFold_length (dirs : List TurnDir) :
    ∀ (k : Nat) (ls : List α), (backFold dirs k ls).length = ls.length := by
  intro k
  induction k with
  | zero => intro ls; rfl
  | succ n ih =>
      intro ls
      rw [backFold, ih]
      split <;> simp [addAt]

theorem sum_addAt (l : List α) :
    ∀ (i : Nat), i < l.length → ∀ v, (addAt i v l).sum = l.sum + v := by
  induction l with
  | nil => intro i hi; simp at hi
  | cons x xs ih =>
      intro i hi v
      cases i with
      | zero => simp [addAt]; ring
      | succ n =>
          simp only [addAt, List.getD_cons_succ, List.set_cons_succ, List.sum_cons]
          rw [show xs.set n (xs.getD n 0 + v) = addAt n v xs from rfl,
            ih n (by simpa using hi) v]
          ring

theorem keepNonDash_cons {β : Type} (d : TurnDir) (ds : List TurnDir) (x : β) (xs : List β) :
    keepNonDash (d :: ds) (x :: xs) =
      if d = .Dash then keepNonDash ds xs else x :: keepNonDash ds xs := by
  by_cases h : d = .Dash <;> simp [keepNonDash, h]

theorem keepNonDash_self_no_dash (dirs : List TurnDir) :
    ∀ d ∈ keepNonDash dirs dirs, d ≠ .Dash := by
  induction dirs with
  | nil => simp [keepNonDash]
  | cons d ds ih =>
      rw [keepNonDash_cons]
      split
      · exact fun x hx => ih x (by
          revert hx
          exact fun hx => by
            have : keepNonDash ds (d :: ds).tail = keepNonDash ds ds := rfl
            exact hx)
      · intro x hx
        rcases List.mem_cons.mp hx with h | h
        · subst h; assumption
        · exact ih x h

theorem keep_sum_addAt :
    ∀ (j : Nat) (dirs : List TurnDir) (l : List α), j < l.length → j < dirs.length →
      dirs.getD j .Dash ≠ .Dash →
      ∀ v, (keepNonDash dirs (addAt j v l)).sum = (keepNonDash dirs l).sum + v := by
  intro j
  induction j with
  | zero =>
      intro dirs l hl hd hnd v
      match dirs, l with
      | d :: ds, x :: xs =>
          have hds : d ≠ .Dash := by simpa using hnd
          simp only [addAt, List.getD_cons_zero, List.set_cons_zero]
          rw [keepNonDash_cons, keepNonDash_cons, if_neg hds, if_neg hds]
          simp [List.sum_cons]
          ring
  | succ n ih =>
      intro dirs l hl hd hnd v
      match dirs, l with
      | d :: ds, x :: xs =>
          have hnd' : ds.getD n .Dash ≠ .Dash := by simpa using hnd
          simp only [addAt, List.getD_cons_succ, List.set_cons_succ]
          rw [show xs.set n (xs.getD n 0 + v) = addAt n v xs from rfl]
          rw [keepNonDash_cons, keepNonDash_cons]
          by_cases hds : d = .Dash
          · rw [if_pos hds, if_pos hds,
              ih ds xs (by simpa using hl) (by simpa using hd) hnd' v]
          · rw [if_neg hds, if_neg hds]
            simp only [List.sum_cons,
              ih ds xs (by simpa using hl) (by simpa using hd) hnd' v]
            ring

/-- The invariant quantity of the backward collinearity scan: the sum of the
entries left of the scan frontier plus the sum of the surviving (non-`'-'`)
entries at and right of the frontier. -/
def mergeQ (dirs : List TurnDir) (ls : List α) (i : Nat) : α :=
  (ls.take i).sum + (keepNonDash (dirs.drop i) (ls.drop i)).sum

theorem mergeQ_step (dirs : List TurnDir) (ls : List α) (j : Nat)
    (h1 : 1 ≤ j) (h2 : j < ls.length) (hd : dirs.length = ls.length) :
    mergeQ dirs
      (if dirs.getD j .Dash = .Dash then addAt (j - 1) (ls.getD j 0) ls else ls) j
      = mergeQ dirs ls (j + 1) := by
  have hjd : j < dirs.length := by omega
  have hgd : ls.getD j 0 = ls[j] := by
    simp [List.getD_eq_getElem?_getD, List.getElem?_eq_getElem h2]
  have hdd : dirs.getD j .Dash = dirs[j] := by
    simp [List.getD_eq_getElem?_getD, List.getElem?_eq_getElem hjd]
  have hdropl : ls.drop j = ls[j] :: ls.drop (j + 1) := List.drop_eq_getElem_cons h2
  have hdropd : dirs.drop j = dirs[j] :: dirs.drop (j + 1) := List.drop_eq_getElem_cons hjd
  have htake : (ls.take (j + 1)).sum = (ls.take j).sum + ls[j] := by
    simpa using List.sum_take_succ ls j h2
  by_cases hc : dirs.getD j .Dash = .Dash
  · rw [if_pos hc]
    have hjj : j - 1 < j := by omega
    unfold mergeQ
    have htk : (addAt (j - 1) (ls.getD j 0) ls).take j = addAt (j - 1) (ls.getD j 0) (ls.take j) := by
      simp only [addAt, List.set_take]
      congr 1
      simp [List.getD_eq_getElem?_getD, List.getElem?_take, hjj]
    have hdr : (addAt (j - 1) (ls.getD j 0) ls).drop j = ls.drop j := by
      simp [addAt, List.drop_set, hjj]
    rw [htk, hdr, sum_addAt (ls.take j) (j - 1)
      (by simp [List.length_take]; omega) (ls.getD j 0)]
    rw [hdropl, hdropd, htake]
    have : dirs[j] = TurnDir.Dash := by rw [← hdd]; exact hc
    rw [this, keepNonDash_cons, if_pos rfl, hgd]
  · rw [if_neg hc]
    unfold mergeQ
    rw [hdropl, hdropd, htake]
    have : dirs[j] ≠ TurnDir.Dash := by rw [← hdd]; exact hc
    rw [keepNonDash_cons, if_neg this]
    simp only [List.sum_cons]
    ring

theorem mergeQ_backFold (dirs : List TurnDir) :
    ∀ (k : Nat) (ls : List α), k < ls.length → dirs.length = ls.length →
      mergeQ dirs (backFold dirs k ls) 1 = mergeQ dirs ls (k + 1) := by
  intro k
  induction k with
  | zero => intro ls _ _; rfl
  | succ n ih =>
      intro ls h1 h2
      rw [backFold]
      have hlen : (if dirs.getD (n + 1) .Dash = .Dash
          then addAt n (ls.getD (n + 1) 0) ls else ls).length = ls.length := by
        split <;> simp [addAt]
      rw [ih _ (by omega) (by omega)]
      have := mergeQ_step dirs ls (n + 1) (by omega) h1 h2
      simpa using this

theorem mergeQ_length (dirs : List TurnDir) (ls : List α) :
    mergeQ dirs ls ls.length = ls.sum := by
  unfold mergeQ
  simp [List.take_of_length_le (le_refl ls.length), List.drop_of_length_le (le_refl ls.length),
    keepNonDash]

theorem lastNonDash_isSome_of (dirs : List TurnDir) (n : Nat)
    (h0 : dirs.getD 0 .Dash = .Dash) (hn : dirs.length = n)
    (hnd : ∃ d ∈ dirs, d ≠ TurnDir.Dash) : (lastNonDash dirs n).isSome := by
  rw [lastNonDash, List.find?_isSome]
  obtain ⟨d, hd, hne⟩ := hnd
  obtain ⟨i, hi, hieq⟩ := List.getElem_of_mem hd
  have hne' : dirs[i] ≠ TurnDir.Dash := by rw [hieq]; exact hne
  have h1 : 1 ≤ i := by
    by_contra h
    have : i = 0 := by omega
    subst this
    apply hne'
    have : dirs.getD 0 .Dash = dirs[0] := by
      simp [List.getD_eq_getElem?_getD, List.getElem?_eq_getElem hi]
    rw [← this, h0]
  refine ⟨i, ?_, ?_⟩
  · rw [List.mem_reverse, List.mem_range'_1]
    omega
  · simp [List.getD_eq_getElem?_getD, List.getElem?_eq_getElem hi, hne']

/-- C3, counterexample.  The claim says a leading `'-'` entry folds its length
forward into the *nearest subsequent* non-`'-'` entry.  For the turn function
with directions `['-', 'L', 'R']` and lengths `[1/2, 1/4, 1/4]` that would
give lengths `[3/4, 1/4]`; the code's backward scan folds the leading length
into the *last* non-`'-'` entry instead, giving `[1/4, 3/4]`. -/
theorem c3_counterexample :
    (postProcessColinearity
        (⟨[0, 90, -90], [1/2, 1/4, 1/4], [.Dash, .L, .R], .CCW⟩ : TurnFunc ℚ)).lengths
      = [1/4, 3/4] ∧ ([1/4, 3/4] : List ℚ) ≠ [3/4, 1/4] := by
  have hL : (TurnDir.L = TurnDir.Dash) = False := by simp
  have hR : (TurnDir.R = TurnDir.Dash) = False := by simp
  have hD : (TurnDir.Dash = TurnDir.Dash) = True := by simp
  constructor
  · norm_num [postProcessColinearity, backFold, addAt, lastNonDash, keepNonDash,
      List.range', List.find?, List.filter_cons, hL, hR, hD]
  · simp only [ne_eq, List.cons.injEq]
    norm_num

/-- C3, amended.  In the collinear merge, scanning from the end backward every
`'-'` entry folds its length into the previous entry and is deleted; a leading
`'-'` entry folds its length into the *last* non-`'-'` entry (the nearest
preceding one cyclically), not the nearest subsequent one; afterwards no `'-'`
entry remains and the surviving lengths still sum to the original total (1
after normalisation). -/
theorem c3_amended (t : TurnFunc α)
    (hpar : t.direction.length = t.lengths.length)
    (hnd : ∃ d ∈ t.direction, d ≠ TurnDir.Dash) :
    (∀ d ∈ (postProcessColinearity t).direction, d ≠ TurnDir.Dash) ∧
    (postProcessColinearity t).lengths.sum = t.lengths.sum := by
  have hdne : t.direction ≠ [] := by
    obtain ⟨d, hd, _⟩ := hnd
    exact List.ne_nil_of_mem hd
  have hn1 : 1 ≤ t.lengths.length := by
    have : 1 ≤ t.direction.length := List.length_pos.mpr hdne
    omega
  have hfinlen : (backFold t.direction (t.lengths.length - 1) t.lengths).length
      = t.lengths.length := backFold_length _ _ _
  have hQ : mergeQ t.direction (backFold t.direction (t.lengths.length - 1) t.lengths) 1
      = t.lengths.sum := by
    rw [mergeQ_backFold t.direction (t.lengths.length - 1) t.lengths (by omega) hpar]
    have he : t.lengths.length - 1 + 1 = t.lengths.length := by omega
    rw [he, mergeQ_length]
  set fin := backFold t.direction (t.lengths.length - 1) t.lengths with hfin
  obtain ⟨f0, fin', hfc⟩ : ∃ f0 fin', fin = f0 :: fin' := by
    cases hx : fin with
    | nil => rw [hx] at hfinlen; simp at hfinlen; omega
    | cons a l => exact ⟨a, l, rfl⟩
  by_cases h0 : t.direction.getD 0 .Dash = .Dash
  · obtain ⟨d0, ds, hdc⟩ : ∃ d0 ds, t.direction = d0 :: ds := by
      cases hx : t.direction with
      | nil => exact absurd hx hdne
      | cons a l => exact ⟨a, l, rfl⟩
    have hd0 : d0 = TurnDir.Dash := by
      rw [hdc] at h0; simpa using h0
    have hsome := lastNonDash_isSome_of t.direction t.lengths.length h0 hpar hnd
    obtain ⟨j, hj⟩ := Option.isSome_iff_exists.mp hsome
    have hj' : List.find? (fun i => decide (t.direction.getD i .Dash ≠ .Dash))
        (List.range' 1 (t.lengths.length - 1)).reverse = some j := by
      rw [lastNonDash] at hj; exact hj
    have hjnd : t.direction.getD j .Dash ≠ .Dash := by
      have := List.find?_some hj'
      simpa using this
    have hjmem : j ∈ (List.range' 1 (t.lengths.length - 1)).reverse :=
      List.mem_of_find?_eq_some hj'
    have hjr : 1 ≤ j ∧ j < 1 + (t.lengths.length - 1) := by
      rw [List.mem_reverse, List.mem_range'_1] at hjmem
      exact hjmem
    have hjl : j < fin.length := by rw [hfinlen]; omega
    have hjd : j < t.direction.length := by rw [hpar]; omega
    simp only [postProcessColinearity, ← hfin, if_pos h0, hj]
    constructor
    · exact keepNonDash_self_no_dash t.direction
    · rw [keep_sum_addAt j t.direction fin hjl hjd hjnd (fin.getD 0 0)]
      rw [← hQ]
      rw [hfc, hdc, hd0]
      rw [keepNonDash_cons, if_pos rfl]
      unfold mergeQ
      simp [List.sum_cons]
      try ring
  · obtain ⟨d0, ds, hdc⟩ : ∃ d0 ds, t.direction = d0 :: ds := by
      cases hx : t.direction with
      | nil => rw [hx] at h0; simp [List.getD] at h0
      | cons a l => exact ⟨a, l, rfl⟩
    have hd0 : d0 ≠ TurnDir.Dash := by
      rw [hdc] at h0; simpa using h0
    simp only [postProcessColinearity, ← hfin, if_neg h0]
    constructor
    · exact keepNonDash_self_no_dash t.direction
    · rw [← hQ, hfc, hdc]
      rw [keepNonDash_cons, if_neg hd0]
      unfold mergeQ
      simp [List.sum_cons]
      try ring

/-- C3, witness for the amended theorem. -/
theorem c3_amended_witness :
    ((⟨[0, 90], [1/2, 1/2], [.Dash, .L], .CCW⟩ : TurnFunc ℝ).direction.length =
        (⟨[0, 90], [1/2, 1/2], [.Dash, .L], .CCW⟩ : TurnFunc ℝ).lengths.length) ∧
    (∃ d ∈ (⟨[0, 90], [1/2, 1/2], [.Dash, .L], .CCW⟩ : TurnFunc ℝ).direction,
        d ≠ TurnDir.Dash) ∧
    ((∀ d ∈ (postProcessColinearity
          (⟨[0, 90], [1/2, 1/2], [.Dash, .L], .CCW⟩ : TurnFunc ℝ)).direction,
        d ≠ TurnDir.Dash) ∧
      (postProcessColinearity
          (⟨[0, 90], [1/2, 1/2], [.Dash, .L], .CCW⟩ : TurnFunc ℝ)).lengths.sum =
        (⟨[0, 90], [1/2, 1/2], [.Dash, .L], .CCW⟩ : TurnFunc ℝ).lengths.sum) := by
  refine ⟨rfl, ⟨.L, by simp, by simp⟩, ?_⟩
  exact c3_amended _ rfl ⟨.L, by simp, by simp⟩

/-! ### Vertex-distance metrics (geometry.py / chamfer, hausdorff, polis) -/

/-- The `point` class of `geometry.py`: a 2D coordinate (floats modelled by ℝ).
A polygon is represented by its closed exterior ring, the list returned by
`geom.polygon_vertices` (first and last vertex coincide). -/
structure point where
  x : ℝ
  y : ℝ

/-- The vertex-to-vertex distance `((ax-bx)**2 + (ay-by)**2)**0.5` (for a
nonnegative operand, `** 0.5` is the square root). -/
noncomputable def vdist (p q : point) : ℝ :=
  Real.sqrt ((p.x - q.x) ^ 2 + (p.y - q.y) ^ 2)

/-- The inner nearest-neighbour loop of `chamfer_distance` and
`hausdorff_distance`: `minimum_distance = 1000.0`, then
`if minimum_distance > distance: minimum_distance = distance` over all
vertices of the other polygon. -/
noncomputable def min_distance_loop (p : point) (vs : List point) : ℝ :=
  vs.foldl (fun m q => if vdist p q < m then vdist p q else m) 1000

/-- The directed Chamfer sum `c_a_b`: the outer loop runs over
`range(len(vertices_a) - 1)` (the ring minus the duplicated closing vertex),
summing the per-vertex minima. -/
noncomputable def c_a_b (va vb : List point) : ℝ :=
  (va.dropLast.map (fun p => min_distance_loop p vb)).sum

/-- The directed Hausdorff value `h_a_b`: `max(...)` of the per-vertex minima
over the whole ring (`range(len(vertices_a))`, including the duplicated
closing vertex).  Python's `max([])` raises; modelled as 0. -/
noncomputable def h_a_b (va vb : List point) : ℝ :=
  match va.map (fun p => min_distance_loop p vb) with
  | [] => 0
  | x :: xs => xs.foldl max x

/-- `chamfer_distance(polygon_a, polygon_b, **kwargs)`.  `none` as the
`symmetrise` argument models omitting the keyword; the `none` result models
the implicit `return None` when the option string matches no branch. -/
noncomputable def chamfer_distance (pa pb : List point) (symmetrise : Option String) :
    Option ℝ :=
  let cab := c_a_b pa pb
  let cba := c_a_b pb pa
  match symmetrise with
  | none => some cab
  | some s =>
      if s = "average" then
        some (cab / (2 * ((pa.length : ℝ) - 1)) + cba / (2 * ((pb.length : ℝ) - 1)))
      else if s = "min" then some (min cab cba)
      else if s = "max" then some (max cab cba)
      else none

/-- `hausdorff_distance(polygon_a, polygon_b, **kwargs)`. -/
noncomputable def hausdorff_distance (pa pb : List point) (symmetrise : Option String) :
    Option ℝ :=
  let hab := h_a_b pa pb
  let hba := h_a_b pb pa
  match symmetrise with
  | none => some hab
  | some s =>
      if s = "min" then some (min hab hba)
      else if s = "max" then some (max hab hba)
      else if s = "average" then some ((hab + hba) / 2)
      else none

/-- Distance from a point to the segment `[a, b]`: the nearest-point distance
used by the external geopandas `boundary.distance` collaborator. -/
noncomputable def point_segment_distance (p a b : point) : ℝ :=
  let dx := b.x - a.x
  let dy := b.y - a.y
  let d2 := dx ^ 2 + dy ^ 2
  let t := if d2 = 0 then 0 else ((p.x - a.x) * dx + (p.y - a.y) * dy) / d2
  let tc := max 0 (min 1 t)
  Real.sqrt ((p.x - (a.x + tc * dx)) ^ 2 + (p.y - (a.y + tc * dy)) ^ 2)

/-- Distance from a point to a polygon boundary: minimum over the ring's
edges (the external `geoSeries.boundary.distance(vertex)` call). -/
noncomputable def boundary_distance (p : point) (ring : List point) : ℝ :=
  match (ring.zip ring.tail).map (fun e => point_segment_distance p e.1 e.2) with
  | [] => 0
  | x :: xs => xs.foldl min x

/-- The directed PoLiS value `polis_a_b`: mean over the `len(coords) - 1`
vertices of polygon A of their distance to polygon B's boundary. -/
noncomputable def polis_a_b (pa pb : List point) : ℝ :=
  ((pa.dropLast.map (fun v => boundary_distance v pb)).sum) / ((pa.length : ℝ) - 1)

/-- `polis_distance(polygon_a, polygon_b, **kwargs)`. -/
noncomputable def polis_distance (pa pb : List point) (symmetrise : Option String) :
    Option ℝ :=
  let pab := polis_a_b pa pb
  let pba := polis_a_b pb pa
  match symmetrise with
  | none => some pab
  | some s =>
      if s = "average" then some (pab / 2 + pba / 2)
      else if s = "max" then some (max pab pba)
      else if s = "min" then some (min pab pba)
      else none

/-! ### Claim C7: the symmetrise dispatch -/

/-- C7, counterexample.  The claim says an unrecognised `symmetrise` option
string fails with an `InvalidArgument` error.  The source raises nothing: the
`if/elif` chain has no final `else`, so the call falls through and returns
Python's `None` — here the model's `none` value, a normal return. -/
theorem c7_counterexample :
    chamfer_distance [⟨0, 0⟩, ⟨1, 0⟩, ⟨0, 1⟩, ⟨0, 0⟩] [⟨0, 0⟩, ⟨1, 0⟩, ⟨0, 1⟩, ⟨0, 0⟩]
        (some ("median")) = none ∧
    hausdorff_distance [⟨0, 0⟩, ⟨1, 0⟩, ⟨0, 1⟩, ⟨0, 0⟩] [⟨0, 0⟩, ⟨1, 0⟩, ⟨0, 1⟩, ⟨0, 0⟩]
        (some ("median")) = none ∧
    polis_distance [⟨0, 0⟩, ⟨1, 0⟩, ⟨0, 1⟩, ⟨0, 0⟩] [⟨0, 0⟩, ⟨1, 0⟩, ⟨0, 1⟩, ⟨0, 0⟩]
        (some ("median")) = none := by
  refine ⟨?_, ?_, ?_⟩ <;>
    simp [chamfer_distance, hausdorff_distance, polis_distance]

/-- C7, amended.  An option string other than `'min'`, `'max'`, `'average'`
makes `chamfer_distance`, `hausdorff_distance` and `polis_distance` silently
return `None` (no exception is raised); omitting the option returns the
directed a→b distance, which is indeed not an error. -/
theorem c7_amended (pa pb : List point) (s : String)
    (h1 : s ≠ "min") (h2 : s ≠ "max") (h3 : s ≠ "average") :
    chamfer_distance pa pb (some s) = none ∧
    hausdorff_distance pa pb (some s) = none ∧
    polis_distance pa pb (some s) = none ∧
    chamfer_distance pa pb none = some (c_a_b pa pb) ∧
    hausdorff_distance pa pb none = some (h_a_b pa pb) ∧
    polis_distance pa pb none = some (polis_a_b pa pb) := by
  refine ⟨?_, ?_, ?_, rfl, rfl, rfl⟩ <;>
    simp [chamfer_distance, hausdorff_distance, polis_distance, h1, h2, h3]

/-- C7, witness for the amended theorem. -/
theorem c7_amended_witness :
    (("median" : String) ≠ "min" ∧ ("median" : String) ≠ "max" ∧
        ("median" : String) ≠ "average") ∧
    (chamfer_distance [] [] (some ("median")) = none ∧
      hausdorff_distance [] [] (some ("median")) = none ∧
      polis_distance [] [] (some ("median")) = none ∧
      chamfer_distance [] [] none = some (c_a_b [] []) ∧
      hausdorff_distance [] [] none = some (h_a_b [] []) ∧
      polis_distance [] [] none = some (polis_a_b [] [])) := by
  refine ⟨⟨by decide, by decide, by decide⟩, ?_⟩
  exact c7_amended [] [] ("median") (by decide) (by decide) (by decide)

/-! ### Claim C10: the 1000.0 initializer caps every nearest-neighbour search -/

theorem min_distance_loop_eq_foldl_min (p : point) (vs : List point) :
    min_distance_loop p vs = (vs.map (vdist p)).foldl min 1000 := by
  unfold min_distance_loop
  rw [List.foldl_map]
  congr 1
  funext m q
  by_cases h : vdist p q < m
  · rw [if_pos h, min_eq_right (le_of_lt h)]
  · rw [if_neg h, min_eq_left (not_lt.mp h)]

theorem foldl_min_le_init (l : List ℝ) : ∀ i : ℝ, l.foldl min i ≤ i := by
  induction l with
  | nil => intro i; simp
  | cons x xs ih =>
      intro i
      simp only [List.foldl_cons]
      exact le_trans (ih (min i x)) (min_le_left i x)

theorem min_distance_loop_le (p : point) (vs : List point) :
    min_distance_loop p vs ≤ 1000 := by
  rw [min_distance_loop_eq_foldl_min]
  exact foldl_min_le_init _ 1000

theorem foldl_max_le (c : ℝ) :
    ∀ (l : List ℝ) (x : ℝ), x ≤ c → (∀ y ∈ l, y ≤ c) → l.foldl max x ≤ c := by
  intro l
  induction l with
  | nil => intro x hx _; simpa using hx
  | cons z zs ih =>
      intro x hx hall
      simp only [List.foldl_cons]
      exact ih (max x z) (max_le hx (hall z (by simp)))
        (fun y hy => hall y (by simp [hy]))

theorem h_a_b_le (va vb : List point) : h_a_b va vb ≤ 1000 := by
  unfold h_a_b
  cases va with
  | nil => norm_num
  | cons p ps =>
      simp only [List.map_cons]
      exact foldl_max_le 1000 _ _ (min_distance_loop_le p vb)
        (fun y hy => by
          obtain ⟨q, _, rfl⟩ := List.mem_map.mp hy
          exact min_distance_loop_le q vb)

theorem min_distance_loop_far (v : point) :
    ∀ (vs : List point), (∀ u ∈ vs, 1000 < vdist v u) → min_distance_loop v vs = 1000 := by
  intro vs
  induction vs with
  | nil => intro _; rfl
  | cons u us ih =>
      intro h
      have hu : ¬ vdist v u < 1000 := not_lt.mpr (le_of_lt (h u (by simp)))
      have : min_distance_loop v (u :: us) = min_distance_loop v us := by
        unfold min_distance_loop
        simp only [List.foldl_cons, if_neg hu]
      rw [this]
      exact ih (fun w hw => h w (by simp [hw]))

/-- C10.  The per-vertex nearest-neighbour value is the minimum of the 1000.0
initializer and the true vertex-to-vertex distances; hence every directed
Hausdorff value is at most 1000; and a vertex all of whose true distances
exceed 1000 yields exactly 1000 — which is precisely its summand in the
directed Chamfer sum `c_a_b` (a sum of `min_distance_loop` values). -/
theorem c10_nearest_neighbour_cap (va vb : List point) (v : point)
    (hfar : ∀ u ∈ vb, 1000 < vdist v u) :
    (∀ (p : point) (vs : List point),
        min_distance_loop p vs = (vs.map (vdist p)).foldl min 1000) ∧
    h_a_b va vb ≤ 1000 ∧
    min_distance_loop v vb = 1000 :=
  ⟨min_distance_loop_eq_foldl_min, h_a_b_le va vb, min_distance_loop_far v vb hfar⟩

/-- C10, witness. -/
theorem c10_nearest_neighbour_cap_witness :
    (∀ u ∈ [(⟨2000, 0⟩ : point)], 1000 < vdist ⟨0, 0⟩ u) ∧
    ((∀ (p : point) (vs : List point),
        min_distance_loop p vs = (vs.map (vdist p)).foldl min 1000) ∧
      h_a_b [(⟨0, 0⟩ : point)] [(⟨2000, 0⟩ : point)] ≤ 1000 ∧
      min_distance_loop (⟨0, 0⟩ : point) [(⟨2000, 0⟩ : point)] = 1000) := by
  have hf : ∀ u ∈ [(⟨2000, 0⟩ : point)], 1000 < vdist ⟨0, 0⟩ u := by
    intro u hu
    simp only [List.mem_singleton] at hu
    subst hu
    unfold vdist
    have : ((0:ℝ) - 2000) ^ 2 + (0 - 0) ^ 2 = 2000 ^ 2 := by norm_num
    rw [this, Real.sqrt_sq (by norm_num)]
    norm_num
  exact ⟨hf, c10_nearest_neighbour_cap [⟨0, 0⟩] [⟨2000, 0⟩] ⟨0, 0⟩ hf⟩

/-! ### Claim C6: symmetrise bounds -/

/-- C6, amended.  The bound `min(d_ab, d_ba) ≤ average ≤ max(d_ab, d_ba)`
holds for Hausdorff and PoLiS, whose `'average'` option is the plain mean of
the two directed values.  (Chamfer's `'average'` is node-count-weighted and
violates the bound; see the counterexample.) -/
theorem c6_amended (pa pb : List point) :
    hausdorff_distance pa pb (some ("average")) =
        some ((h_a_b pa pb + h_a_b pb pa) / 2) ∧
    min (h_a_b pa pb) (h_a_b pb pa) ≤ (h_a_b pa pb + h_a_b pb pa) / 2 ∧
    (h_a_b pa pb + h_a_b pb pa) / 2 ≤ max (h_a_b pa pb) (h_a_b pb pa) ∧
    polis_distance pa pb (some ("average")) =
        some (polis_a_b pa pb / 2 + polis_a_b pb pa / 2) ∧
    min (polis_a_b pa pb) (polis_a_b pb pa) ≤ polis_a_b pa pb / 2 + polis_a_b pb pa / 2 ∧
    polis_a_b pa pb / 2 + polis_a_b pb pa / 2 ≤ max (polis_a_b pa pb) (polis_a_b pb pa) := by
  refine ⟨by simp [hausdorff_distance], ?_, ?_, by simp [polis_distance], ?_, ?_⟩
  · linarith [min_le_left (h_a_b pa pb) (h_a_b pb pa), min_le_right (h_a_b pa pb) (h_a_b pb pa)]
  · linarith [le_max_left (h_a_b pa pb) (h_a_b pb pa), le_max_right (h_a_b pa pb) (h_a_b pb pa)]
  · linarith [min_le_left (polis_a_b pa pb) (polis_a_b pb pa),
      min_le_right (polis_a_b pa pb) (polis_a_b pb pa)]
  · linarith [le_max_left (polis_a_b pa pb) (polis_a_b pb pa),
      le_max_right (polis_a_b pa pb) (polis_a_b pb pa)]

theorem sqrt_eval {a b : ℝ} (hb : 0 ≤ b) (h : a = b ^ 2) : Real.sqrt a = b := by
  rw [h, Real.sqrt_sq hb]

/-- The closed ring of the 3-4-5 triangle (0,0), (4,0), (0,3). -/
noncomputable def triA : List point := [⟨0, 0⟩, ⟨4, 0⟩, ⟨0, 3⟩, ⟨0, 0⟩]

/-- `triA` translated 12 units to the right. -/
noncomputable def triB : List point := [⟨12, 0⟩, ⟨16, 0⟩, ⟨12, 3⟩, ⟨12, 0⟩]

theorem mdl_a0 : min_distance_loop ⟨0, 0⟩ triB = 12 := by
  have e1 : vdist ⟨0, 0⟩ ⟨12, 0⟩ = 12 := by
    unfold vdist; exact sqrt_eval (by norm_num) (by norm_num)
  have e2 : vdist ⟨0, 0⟩ ⟨16, 0⟩ = 16 := by
    unfold vdist; exact sqrt_eval (by norm_num) (by norm_num)
  have e3 : vdist ⟨0, 0⟩ ⟨12, 3⟩ = Real.sqrt 153 := by unfold vdist; norm_num
  have h153 : ¬ (Real.sqrt 153 < 12) := not_lt.mpr (Real.le_sqrt_of_sq_le (by norm_num))
  simp only [min_distance_loop, triB, List.foldl_cons, List.foldl_nil, e1, e2, e3]
  norm_num [h153]

theorem mdl_a1 : min_distance_loop ⟨4, 0⟩ triB = 8 := by
  have e1 : vdist ⟨4, 0⟩ ⟨12, 0⟩ = 8 := by
    unfold vdist; exact sqrt_eval (by norm_num) (by norm_num)
  have e2 : vdist ⟨4, 0⟩ ⟨16, 0⟩ = 12 := by
    unfold vdist; exact sqrt_eval (by norm_num) (by norm_num)
  have e3 : vdist ⟨4, 0⟩ ⟨12, 3⟩ = Real.sqrt 73 := by unfold vdist; norm_num
  have h73 : ¬ (Real.sqrt 73 < 8) := not_lt.mpr (Real.le_sqrt_of_sq_le (by norm_num))
  simp only [min_distance_loop, triB, List.foldl_cons, List.foldl_nil, e1, e2, e3]
  norm_num [h73]

theorem mdl_a2 : min_distance_loop ⟨0, 3⟩ triB = 12 := by
  have e1 : vdist ⟨0, 3⟩ ⟨12, 0⟩ = Real.sqrt 153 := by unfold vdist; norm_num
  have e2 : vdist ⟨0, 3⟩ ⟨16, 0⟩ = Real.sqrt 265 := by unfold vdist; norm_num
  have e3 : vdist ⟨0, 3⟩ ⟨12, 3⟩ = 12 := by
    unfold vdist; exact sqrt_eval (by norm_num) (by norm_num)
  have h1 : Real.sqrt 153 < 1000 := (Real.sqrt_lt' (by norm_num)).mpr (by norm_num)
  have h2 : ¬ (Real.sqrt 265 < Real.sqrt 153) :=
    not_lt.mpr (Real.sqrt_le_sqrt (by norm_num))
  have h3 : (12:ℝ) < Real.sqrt 153 := Real.lt_sqrt_of_sq_lt (by norm_num)
  have h4 : ¬ (Real.sqrt 153 < 12) := not_lt.mpr (Real.le_sqrt_of_sq_le (by norm_num))
  simp only [min_distance_loop, triB, List.foldl_cons, List.foldl_nil, e1, e2, e3]
  norm_num [h1, h2, h3, h4]

theorem mdl_b0 : min_distance_loop ⟨12, 0⟩ triA = 8 := by
  have e1 : vdist ⟨12, 0⟩ ⟨0, 0⟩ = 12 := by
    unfold vdist; exact sqrt_eval (by norm_num) (by norm_num)
  have e2 : vdist ⟨12, 0⟩ ⟨4, 0⟩ = 8 := by
    unfold vdist; exact sqrt_eval (by norm_num) (by norm_num)
  have e3 : vdist ⟨12, 0⟩ ⟨0, 3⟩ = Real.sqrt 153 := by unfold vdist; norm_num
  have h153 : ¬ (Real.sqrt 153 < 8) := not_lt.mpr (Real.le_sqrt_of_sq_le (by norm_num))
  simp only [min_distance_loop, triA, List.foldl_cons, List.foldl_nil, e1, e2, e3]
  norm_num [h153]

theorem mdl_b1 : min_distance_loop ⟨16, 0⟩ triA = 12 := by
  have e1 : vdist ⟨16, 0⟩ ⟨0, 0⟩ = 16 := by
    unfold vdist; exact sqrt_eval (by norm_num) (by norm_num)
  have e2 : vdist ⟨16, 0⟩ ⟨4, 0⟩ = 12 := by
    unfold vdist; exact sqrt_eval (by norm_num) (by norm_num)
  have e3 : vdist ⟨16, 0⟩ ⟨0, 3⟩ = Real.sqrt 265 := by unfold vdist; norm_num
  have h265 : ¬ (Real.sqrt 265 < 12) := not_lt.mpr (Real.le_sqrt_of_sq_le (by norm_num))
  simp only [min_distance_loop, triA, List.foldl_cons, List.foldl_nil, e1, e2, e3]
  norm_num [h265]

theorem mdl_b2 : min_distance_loop ⟨12, 3⟩ triA = Real.sqrt 73 := by
  have e1 : vdist ⟨12, 3⟩ ⟨0, 0⟩ = Real.sqrt 153 := by unfold vdist; norm_num
  have e2 : vdist ⟨12, 3⟩ ⟨4, 0⟩ = Real.sqrt 73 := by unfold vdist; norm_num
  have e3 : vdist ⟨12, 3⟩ ⟨0, 3⟩ = 12 := by
    unfold vdist; exact sqrt_eval (by norm_num) (by norm_num)
  have h1 : Real.sqrt 153 < 1000 := (Real.sqrt_lt' (by norm_num)).mpr (by norm_num)
  have h2 : Real.sqrt 73 < Real.sqrt 153 := Real.sqrt_lt_sqrt (by norm_num) (by norm_num)
  have h3 : ¬ ((12:ℝ) < Real.sqrt 73) := by
    refine not_lt.mpr ?_
    have h := Real.sqrt_le_sqrt (show (73:ℝ) ≤ 144 by norm_num)
    rwa [sqrt_eval (show (0:ℝ) ≤ 12 by norm_num) (show (144:ℝ) = 12 ^ 2 by norm_num)] at h
  have h4 : ¬ (Real.sqrt 153 < Real.sqrt 73) :=
    not_lt.mpr (Real.sqrt_le_sqrt (by norm_num))
  simp only [min_distance_loop, triA, List.foldl_cons, List.foldl_nil, e1, e2, e3]
  norm_num [h1, h2, h3, h4]

theorem cab_triangles : c_a_b triA triB = 32 := by
  have hd : triA.dropLast = [⟨0, 0⟩, ⟨4, 0⟩, ⟨0, 3⟩] := by simp [triA]
  rw [c_a_b, hd]
  simp only [List.map_cons, List.map_nil, List.sum_cons, List.sum_nil, mdl_a0, mdl_a1, mdl_a2]
  norm_num

theorem cba_triangles : c_a_b triB triA = 20 + Real.sqrt 73 := by
  have hd : triB.dropLast = [⟨12, 0⟩, ⟨16, 0⟩, ⟨12, 3⟩] := by simp [triB]
  rw [c_a_b, hd]
  simp only [List.map_cons, List.map_nil, List.sum_cons, List.sum_nil, mdl_b0, mdl_b1, mdl_b2]
  ring

/-- C6, counterexample.  For Chamfer the `'average'` option divides each
directed sum by twice its own polygon's vertex count, so it is not a mean of
the two directed values: for the 3-4-5 triangle `triA` and its copy `triB`
translated 12 units, the directed sums are 32 and `20 + √73` (≈ 28.5), the
`'min'` result is their minimum, but the `'average'` result is
`32/6 + (20 + √73)/6` (≈ 10.1), strictly below the minimum — refuting
`min(d_ab, d_ba) ≤ average` as claimed for chamfer_distance. -/
theorem c6_counterexample :
    chamfer_distance triA triB (some ("min")) = some (min 32 (20 + Real.sqrt 73)) ∧
    chamfer_distance triA triB (some ("average")) =
        some (32 / 6 + (20 + Real.sqrt 73) / 6) ∧
    ¬ (min 32 (20 + Real.sqrt 73) ≤ 32 / 6 + (20 + Real.sqrt 73) / 6) := by
  have hs : Real.sqrt 73 ≤ 12 := by
    have h := Real.sqrt_le_sqrt (show (73:ℝ) ≤ 144 by norm_num)
    rwa [sqrt_eval (show (0:ℝ) ≤ 12 by norm_num) (show (144:ℝ) = 12 ^ 2 by norm_num)] at h
  refine ⟨?_, ?_, ?_⟩
  · simp [chamfer_distance, cab_triangles, cba_triangles]
  · have h2 : chamfer_distance triA triB (some ("average")) =
        some (c_a_b triA triB / (2 * ((triA.length : ℝ) - 1)) +
          c_a_b triB triA / (2 * ((triB.length : ℝ) - 1))) := by
      simp [chamfer_distance]
    have hla : triA.length = 4 := by simp [triA]
    have hlb : triB.length = 4 := by simp [triB]
    rw [h2, cab_triangles, cba_triangles, hla, hlb]
    norm_num
  · have hmin : min (32:ℝ) (20 + Real.sqrt 73) = 20 + Real.sqrt 73 :=
      min_eq_right (by linarith)
    rw [hmin]
    push_neg
    linarith [Real.sqrt_nonneg (73:ℝ)]

/-! ### The turning-function builder (`turning_function`) -/

/-- The orientation labels returned by `line_vector.point_on_where`. -/
inductive Side
  | LEFT
  | RIGHT
  | COLINEAR
deriving DecidableEq

/-- The `line_vector` class of `geometry.py`: a directed edge from `p1` to `p2`. -/
structure line_vector where
  p1 : point
  p2 : point

/-- `point_on_where`: the sign of the cross product of `p1→p2` and `p2→px`,
rounded to 3 decimals. -/
noncomputable def line_vector.point_on_where (v : line_vector) (px : point) : Side :=
  if 0 < round3 ((v.p2.x - v.p1.x) * (px.y - v.p2.y) -
      (v.p2.y - v.p1.y) * (px.x - v.p2.x)) then .LEFT
  else if round3 ((v.p2.x - v.p1.x) * (px.y - v.p2.y) -
      (v.p2.y - v.p1.y) * (px.x - v.p2.x)) < 0 then .RIGHT
  else .COLINEAR

/-- `line_vector.length`: the Euclidean length. -/
noncomputable def line_vector.length (v : line_vector) : ℝ :=
  Real.sqrt ((v.p2.x - v.p1.x) ^ 2 + (v.p2.y - v.p1.y) ^ 2)

/-- `angle_to_vector`: `math.degrees(math.acos(round(cos_alpha, 3)))`. -/
noncomputable def line_vector.angle_to_vector (v vx : line_vector) : ℝ :=
  Real.arccos (round3 (((v.p2.x - v.p1.x) * (vx.p2.x - vx.p1.x) +
    (v.p2.y - v.p1.y) * (vx.p2.y - vx.p1.y)) / (v.length * vx.length))) * 180 / Real.pi

/-- Ring indexing with a default (all indices the source uses are in range). -/
def pt (r : List point) (i : Nat) : point :=
  r.getD i ⟨0, 0⟩

/-- One `(angle, direction, length)` entry of the construction: classify the
turn by `vx.point_on_where` of the next vector's head (`w.p2`, which is the
probe point the source passes: `points[i+2]` in the loop, `v_init.p2` at the
wrap-around), signing `vx.angle_to_vector(w)` accordingly; the recorded length
is `w.length()`. -/
noncomputable def turn_entry (vx w : line_vector) : ℝ × TurnDir × ℝ :=
  match vx.point_on_where w.p2 with
  | .LEFT => (vx.angle_to_vector w, .L, w.length)
  | .RIGHT => (-(vx.angle_to_vector w), .R, w.length)
  | .COLINEAR => (0, .Dash, w.length)

/-- One entry of the forward construction loop of `turning_function`: for
`k < n-2` the triple `(points[k], points[k+1], points[k+2])`, and for
`k = n-2` the final wrap-around entry between the last segment and
`v_init = (points[0], points[1])` (whose length is `v_init`'s). -/
noncomputable def raw_entry (r : List point) (k : Nat) : ℝ × TurnDir × ℝ :=
  if k = r.length - 2 then
    turn_entry ⟨pt r (r.length - 2), pt r (r.length - 1)⟩ ⟨pt r 0, pt r 1⟩
  else
    turn_entry ⟨pt r k, pt r (k + 1)⟩ ⟨pt r (k + 1), pt r (k + 2)⟩

/-- One entry of the reversed-walk construction (the `ccw` redo block): the
source walks `points[-i-1], points[-i-2], points[-i-3]`, i.e. indices
`n-1-k, n-2-k, n-3-k`, with `v_init = (points[-1], points[-2])`. -/
noncomputable def raw_entry_rev (r : List point) (k : Nat) : ℝ × TurnDir × ℝ :=
  if k = r.length - 2 then
    turn_entry ⟨pt r 1, pt r 0⟩ ⟨pt r (r.length - 1), pt r (r.length - 2)⟩
  else
    turn_entry ⟨pt r (r.length - 1 - k), pt r (r.length - 2 - k)⟩
      ⟨pt r (r.length - 2 - k), pt r (r.length - 3 - k)⟩

/-- The raw (pre-normalisation) turn function of the forward walk: the loop
appends one entry per `i in range(len(points)-2)` and then the wrap-around
entry, i.e. entries `0, ..., n-2`. -/
noncomputable def turning_function_raw (r : List point) : TurnFunc ℝ :=
  let es := (List.range (r.length - 1)).map (raw_entry r)
  { angles := es.map (fun e => e.1)
    lengths := es.map (fun e => e.2.2)
    direction := es.map (fun e => e.2.1)
    digitisation_direction := .CCW }

/-- The raw turn function of the reversed walk (the `ccw` redo block). -/
noncomputable def turning_function_raw_rev (r : List point) : TurnFunc ℝ :=
  let es := (List.range (r.length - 1)).map (raw_entry_rev r)
  { angles := es.map (fun e => e.1)
    lengths := es.map (fun e => e.2.2)
    direction := es.map (fun e => e.2.1)
    digitisation_direction := .CCW }

/-- `turn["lengths"][i] = turn["lengths"][i] / total_length`. -/
noncomputable def normalise_lengths (t : TurnFunc ℝ) : TurnFunc ℝ :=
  { t with lengths := t.lengths.map (fun l => l / t.lengths.sum) }

/-- The full forward construction: raw walk, length normalisation, collinear
merge. -/
noncomputable def build_turning_function (r : List point) : TurnFunc ℝ :=
  postProcessColinearity (normalise_lengths (turning_function_raw r))

/-- The full reversed construction (the body of the `ccw` redo block). -/
noncomputable def build_turning_function_rev (r : List point) : TurnFunc ℝ :=
  postProcessColinearity (normalise_lengths (turning_function_raw_rev r))

/-- `turning_function(polygon, **kwargs)`.  `ccw` is `none` when the keyword
is omitted; the source tests `'ccw' in kwargs`, i.e. only presence.  When the
(post-merge) angles round-sum to -360 the digitisation was clockwise: with the
`ccw` keyword present the construction is redone walking the ring in reverse
order, otherwise the function is returned marked `'CW'`. -/
noncomputable def turning_function (r : List point) (ccw : Option Bool) : TurnFunc ℝ :=
  if roundHalfEven (build_turning_function r).angles.sum = -360 then
    if ccw.isSome then
      { build_turning_function_rev r with digitisation_direction := .CCW }
    else
      { build_turning_function r with digitisation_direction := .CW }
  else build_turning_function r

/-! ### The alignment-distance evaluator and the top level -/

/-- The interval search of `calculate_distance_min_distance_snaphot`:
`for j in range(index_a, len(pw))`, starting from the current index.  (When
`fb = 0` the source evaluates `pw[-1] < x <= pw[0]`, which is false for every
breakpoint, as is this model's `pw[0] < x ≤ pw[0]`.) -/
def interval_index_from (pw : List α) (x : α) (fb : Nat) : Nat :=
  match (List.range' fb (pw.length - fb)).find?
      (fun j => decide (pw.getD (j - 1) 0 < x ∧ x ≤ pw.getD j 0)) with
  | some j => j - 1
  | none => fb

/-- `sorted(set(l))`: the sorted list of the distinct values of `l`. -/
def sorted_set [DecidableEq α] (l : List α) : List α :=
  (l.dedup).insertionSort (· ≤ ·)

/-- The Euclidean accumulation loop of `calculate_distance_min_distance_snaphot`:
walk the de-duplicated breakpoints, track the current interval index of each
function, and accumulate `sqrt(|Δangle|² + |Δlength|²)`. -/
noncomputable def total_distance_loop (aAng bAng aLen bLen pwa pwb : List ℝ) :
    List ℝ → Nat → Nat → ℝ → ℝ
  | [], _, _, acc => acc
  | x :: rest, ia, ib, acc =>
      let ia' := interval_index_from pwa x ia
      let ib' := interval_index_from pwb x ib
      total_distance_loop aAng bAng aLen bLen pwa pwb rest ia' ib'
        (acc + Real.sqrt (|aAng.getD ia' 0 - bAng.getD ib' 0| ^ 2 +
          |aLen.getD ia' 0 - bLen.getD ib' 0| ^ 2))

/-- `calculate_distance_min_distance_snaphot` (its returned `total_distance`):
de-duplicate and sort the merged breakpoints, then accumulate the Euclidean
terms over them starting at index 1. -/
noncomputable def calculate_distance_min_distance_snaphot (sn : Snapshot ℝ) : ℝ :=
  total_distance_loop sn.a.angles sn.b.angles sn.a.lengths sn.b.lengths
    sn.piece_wise_a sn.piece_wise_b ((sorted_set sn.combined_piece_wise).drop 1) 1 1 0

/-- `turning_function_distance(polygon_a, polygon_b)`: build both turn
functions with `ccw=True`, normalise them, align (CCW attempt), then rebuild
the CW-equivalent pair in place (shift lengths right by one, negate angles,
`switch_to_cw` both sequences), align again, and return the smaller of the two
evaluated total distances.  `none` models the `NameError` crash when no
snapshot was ever taken (empty turn functions). -/
noncomputable def turning_function_distance (ra rb : List point) : Option ℝ :=
  let a0 := turning_function ra (some true)
  let b0 := turning_function rb (some true)
  let a1 := normalise_turn_function a0
  let b1 := normalise_turn_function b0
  let ca := coincide_turning_functions a1 b1
  let a2 := ca.1
  let b2 := ca.2.1
  let a3 := { a2 with lengths := shift_lengths_right a2.lengths }
  let b3 := { b2 with lengths := shift_lengths_right b2.lengths }
  let a4 := { a3 with angles := a3.angles.map (fun v => v * (-1)) }
  let b4 := { b3 with angles := b3.angles.map (fun v => v * (-1)) }
  let a5 := { a4 with angles := switch_to_cw a4.angles, lengths := switch_to_cw a4.lengths }
  let b5 := { b4 with angles := switch_to_cw b4.angles, lengths := switch_to_cw b4.lengths }
  let cb := coincide_turning_functions a5 b5
  match ca.2.2, cb.2.2 with
  | some s1, some s2 =>
      let m1 := calculate_distance_min_distance_snaphot s1
      let m2 := calculate_distance_min_distance_snaphot s2
      some (if m1 < m2 then m1 else m2)
  | _, _ => none

/-- `scale(polygon, s)`: uniform scaling about the origin (the spec's `scale`
operation used by the scale-invariance property). -/
noncomputable def scale_polygon (s : ℝ) (r : List point) : List point :=
  r.map (fun p => ⟨s * p.x, s * p.y⟩)

/-! ### Aligning a turn function with itself costs nothing -/

theorem angle_cost_loop_self (ang pw : List α) :
    ∀ (xs : List α) (i : Nat) (acc : α),
      angle_cost_loop ang ang pw pw xs i i acc = acc := by
  intro xs
  induction xs with
  | nil => intro i acc; rfl
  | cons x rest ih =>
      intro i acc
      rw [angle_cost_loop]
      simp only [sub_self, abs_zero, add_zero]
      exact ih _ _

theorem angle_cost_loop_mono (aAng bAng pwa pwb : List α) :
    ∀ (xs : List α) (ia ib : Nat) (acc : α),
      acc ≤ angle_cost_loop aAng bAng pwa pwb xs ia ib acc := by
  intro xs
  induction xs with
  | nil => intro ia ib acc; exact le_refl acc
  | cons x rest ih =>
      intro ia ib acc
      rw [angle_cost_loop]
      exact le_trans (le_add_of_nonneg_right (abs_nonneg _)) (ih _ _ _)

theorem rotation_cost_self (ang pw : List α) : rotation_cost ang ang pw pw = 0 :=
  angle_cost_loop_self ang pw _ 1 0

theorem rotation_cost_nonneg (aAng bAng pwa pwb : List α) :
    0 ≤ rotation_cost aAng bAng pwa pwb :=
  angle_cost_loop_mono aAng bAng pwa pwb _ 1 1 0

/-- Once the running minimum is 0, no later rotation step can replace the
snapshot (every cost is a sum of absolute values, hence nonnegative). -/
theorem sweep_a_no_update (b : TurnFunc α) (pwb : List α) :
    ∀ (k : Nat) (a : TurnFunc α) (snap : Option (Snapshot α)),
      sweep_a b pwb k a 0 snap =
        ({ a with angles := a.angles.rotate k, lengths := a.lengths.rotate k }, 0, snap) := by
  intro k
  induction k with
  | zero => intro a snap; simp [sweep_a]
  | succ n ih =>
      intro a snap
      rw [sweep_a]
      have hno : ¬ rotation_cost a.angles b.angles (piece_wise a.lengths) pwb < 0 :=
        not_lt.mpr (rotation_cost_nonneg _ _ _ _)
      simp only [update_snapshot, if_neg hno]
      rw [ih]
      simp [shift_turn, pop_append_eq_rotate, List.rotate_rotate, Nat.add_comm]

theorem sweep_b_no_update (a : TurnFunc α) (pwa : List α) :
    ∀ (k : Nat) (b : TurnFunc α) (snap : Option (Snapshot α)),
      sweep_b a pwa k b 0 snap =
        ({ b with angles := b.angles.rotate k, lengths := b.lengths.rotate k }, 0, snap) := by
  intro k
  induction k with
  | zero => intro b snap; simp [sweep_b]
  | succ n ih =>
      intro b snap
      rw [sweep_b]
      have hno : ¬ rotation_cost a.angles b.angles pwa (piece_wise b.lengths) < 0 :=
        not_lt.mpr (rotation_cost_nonneg _ _ _ _)
      simp only [update_snapshot, if_neg hno]
      rw [ih]
      simp [shift_turn, pop_append_eq_rotate, List.rotate_rotate, Nat.add_comm]

/-- The self-alignment snapshot: shift 0 of `coincide_turning_functions t t`. -/
noncomputable def self_snapshot (t : TurnFunc α) : Snapshot α :=
  ⟨t, t, 0, piece_wise t.lengths, piece_wise t.lengths,
    combined_breakpoints (piece_wise t.lengths) (piece_wise t.lengths)⟩

/-- Aligning a turn function with itself: shift 0 already has cost 0, no later
shift beats it strictly, both sweeps complete full cycles, and the snapshot is
the shift-0 one. -/
theorem coincide_self (t : TurnFunc α)
    (hpar : t.angles.length = t.lengths.length) (hne : t.lengths ≠ []) :
    coincide_turning_functions t t = (t, t, some (self_snapshot t)) := by
  obtain ⟨m, hm⟩ : ∃ m, t.lengths.length = m + 1 := by
    cases hx : t.lengths with
    | nil => exact absurd hx hne
    | cons y ys => exact ⟨ys.length, by simp [hx]⟩
  have hrest : t.angles.rotate t.lengths.length = t.angles := by
    rw [← hpar, List.rotate_length]
  have hrest' : t.lengths.rotate t.lengths.length = t.lengths := by
    rw [List.rotate_length]
  have hsweepa : sweep_a t (piece_wise t.lengths) t.lengths.length t (10 ^ 10) none =
      (t, 0, some (self_snapshot t)) := by
    rw [hm, sweep_a]
    have hdist : rotation_cost t.angles t.angles (piece_wise t.lengths)
        (piece_wise t.lengths) = 0 := rotation_cost_self _ _
    have hlt : rotation_cost t.angles t.angles (piece_wise t.lengths)
        (piece_wise t.lengths) < 10 ^ 10 := by
      rw [hdist]; positivity
    simp only [update_snapshot, if_pos hlt, hdist]
    have h10 : (0:α) < 10 ^ 10 := by positivity
    simp only [if_pos h10]
    rw [sweep_a_no_update]
    have h1 : (shift_turn t).angles.rotate m = t.angles := by
      rw [shift_turn_angles, List.rotate_rotate, Nat.add_comm, ← hm, hrest]
    have h2 : (shift_turn t).lengths.rotate m = t.lengths := by
      rw [shift_turn_lengths, List.rotate_rotate, Nat.add_comm, ← hm, hrest']
    simp only [shift_turn] at h1 h2
    simp [shift_turn, h1, h2, self_snapshot]
  have hsweepb : sweep_b t (piece_wise t.lengths) t.lengths.length t 0
      (some (self_snapshot t)) = (t, 0, some (self_snapshot t)) := by
    rw [sweep_b_no_update, hrest, hrest']
  rw [coincide_turning_functions]
  simp only [hsweepa, hsweepb]

theorem total_distance_loop_self (ang len pw : List ℝ) :
    ∀ (xs : List ℝ) (i : Nat) (acc : ℝ),
      total_distance_loop ang ang len len pw pw xs i i acc = acc := by
  intro xs
  induction xs with
  | nil => intro i acc; rfl
  | cons x rest ih =>
      intro i acc
      rw [total_distance_loop]
      simp only [sub_self, abs_zero, ne_eq, OfNat.ofNat_ne_zero, not_false_eq_true,
        zero_pow, add_zero, Real.sqrt_zero]
      exact ih _ _

theorem calculate_self (t : TurnFunc ℝ) :
    calculate_distance_min_distance_snaphot (self_snapshot t) = 0 := by
  unfold calculate_distance_min_distance_snaphot self_snapshot
  exact total_distance_loop_self _ _ _ _ 1 0

theorem pop_append_length {β : Type} (l : List β) : (pop_append l).length = l.length := by
  cases l <;> simp [pop_append]

theorem switch_to_cw_length (l : List α) : (switch_to_cw l).length = l.length := by
  simp [switch_to_cw, pop_append_length]

theorem shift_lengths_right_length (l : List α) :
    (shift_lengths_right l).length = l.length := by
  cases hx : l.getLast? with
  | none =>
      rw [List.getLast?_eq_none_iff.mp hx]
      rfl
  | some z =>
      have hne : l ≠ [] := by intro h; subst h; simp at hx
      have h1 : 1 ≤ l.length := List.length_pos.mpr hne
      simp only [shift_lengths_right, hx, List.length_cons, List.length_dropLast]
      omega

theorem switch_to_cw_ne_nil (l : List α) (h : l ≠ []) : switch_to_cw l ≠ [] := by
  intro hc
  apply h
  have := switch_to_cw_length l
  rw [hc] at this
  exact List.length_eq_zero.mp this.symm

theorem shift_lengths_right_ne_nil (l : List α) (h : l ≠ []) :
    shift_lengths_right l ≠ [] := by
  intro hc
  apply h
  have := shift_lengths_right_length l
  rw [hc] at this
  exact List.length_eq_zero.mp this.symm

/-- When the two polygons' canonical turn functions coincide, the whole
turning-function-distance pipeline returns exactly 0: the shift-0 alignment
already has zero angular cost, the snapshot keeps it, and the Euclidean
evaluator sums square roots of zeros; the CW-equivalent second attempt behaves
identically, and `min(0, 0) = 0`. -/
theorem tfd_self (ra rb : List point)
    (heq : turning_function ra (some true) = turning_function rb (some true))
    (hpar : (turning_function ra (some true)).angles.length =
      (turning_function ra (some true)).lengths.length)
    (hne : (turning_function ra (some true)).lengths ≠ []) :
    turning_function_distance ra rb = some 0 := by
  unfold turning_function_distance
  rw [← heq]
  set t0 := turning_function ra (some true) with ht0
  set t1 := normalise_turn_function t0 with ht1
  have hpar1 : t1.angles.length = t1.lengths.length := by
    simp [ht1, normalise_turn_function, hpar]
  have hne1 : t1.lengths ≠ [] := by
    simp [ht1, normalise_turn_function]
    exact hne
  simp only [← ht1, coincide_self t1 hpar1 hne1]
  set t2 : TurnFunc ℝ :=
    { angles := switch_to_cw (List.map (fun v => v * -1) t1.angles),
      lengths := switch_to_cw (shift_lengths_right t1.lengths),
      direction := t1.direction,
      digitisation_direction := t1.digitisation_direction } with ht2
  have hpar2 : t2.angles.length = t2.lengths.length := by
    simp [ht2, switch_to_cw_length, shift_lengths_right_length, hpar1]
  have hne2 : t2.lengths ≠ [] := by
    simp only [ht2]
    exact switch_to_cw_ne_nil _ (shift_lengths_right_ne_nil _ hne1)
  rw [coincide_self t2 hpar2 hne2]
  simp only [calculate_self]
  norm_num

/-! ### Structural invariants of the builder -/

theorem keepNonDash_length_eq {β γ : Type} :
    ∀ (dirs : List TurnDir) (l1 : List β) (l2 : List γ), l1.length = l2.length →
      (keepNonDash dirs l1).length = (keepNonDash dirs l2).length := by
  intro dirs
  induction dirs with
  | nil => intro l1 l2 h; simp [keepNonDash]
  | cons d ds ih =>
      intro l1 l2 h
      match l1, l2 with
      | [], [] => simp [keepNonDash]
      | x :: xs, y :: ys =>
          rw [keepNonDash_cons, keepNonDash_cons]
          have h' : xs.length = ys.length := by simpa using h
          by_cases hd : d = .Dash
          · rw [if_pos hd, if_pos hd]; exact ih xs ys h'
          · rw [if_neg hd, if_neg hd]; simp [ih xs ys h']
      | [], y :: ys => simp at h
      | x :: xs, [] => simp at h

theorem postProcessColinearity_dig (t : TurnFunc α) :
    (postProcessColinearity t).digitisation_direction = t.digitisation_direction := by
  unfold postProcessColinearity
  split
  · cases hmatch : lastNonDash t.direction t.lengths.length with
    | some j => simp [hmatch]
    | none => simp [hmatch]
  · rfl

theorem postProcessColinearity_par (t : TurnFunc α)
    (h1 : t.angles.length = t.lengths.length) :
    (postProcessColinearity t).angles.length = (postProcessColinearity t).lengths.length := by
  have hbf : (backFold t.direction (t.lengths.length - 1) t.lengths).length
      = t.lengths.length := backFold_length _ _ _
  unfold postProcessColinearity
  split
  · cases hmatch : lastNonDash t.direction t.lengths.length with
    | some j =>
        simp only [hmatch]
        apply keepNonDash_length_eq
        simp [addAt, hbf, h1]
    | none => simp [hmatch, h1]
  · simp only
    apply keepNonDash_length_eq
    rw [hbf, h1]

theorem build_turning_function_par (r : List point) :
    (build_turning_function r).angles.length = (build_turning_function r).lengths.length := by
  unfold build_turning_function
  apply postProcessColinearity_par
  simp [normalise_lengths, turning_function_raw]

theorem build_turning_function_rev_par (r : List point) :
    (build_turning_function_rev r).angles.length =
      (build_turning_function_rev r).lengths.length := by
  unfold build_turning_function_rev
  apply postProcessColinearity_par
  simp [normalise_lengths, turning_function_raw_rev]

theorem build_turning_function_dig (r : List point) :
    (build_turning_function r).digitisation_direction = DigDir.CCW := by
  unfold build_turning_function
  rw [postProcessColinearity_dig]
  rfl

theorem turning_function_par (r : List point) (c : Option Bool) :
    (turning_function r c).angles.length = (turning_function r c).lengths.length := by
  unfold turning_function
  split
  · split
    · exact build_turning_function_rev_par r
    · exact build_turning_function_par r
  · exact build_turning_function_par r

/-! ### The reversed walk is the forward walk on the reversed ring -/

theorem pt_reverse (r : List point) (j : Nat) (hj : j < r.length) :
    pt r.reverse j = pt r (r.length - 1 - j) := by
  unfold pt
  have hj' : j < r.reverse.length := by simpa using hj
  rw [List.getD_eq_getElem _ _ hj', List.getD_eq_getElem _ _ (by omega)]
  exact List.getElem_reverse hj'

theorem raw_entry_rev_eq (r : List point) (k : Nat) (hk : k < r.length - 1) :
    raw_entry_rev r k = raw_entry r.reverse k := by
  have hn : r.reverse.length = r.length := by simp
  have h2 : 2 ≤ r.length := by omega
  unfold raw_entry raw_entry_rev
  rw [hn]
  by_cases hfin : k = r.length - 2
  · rw [if_pos hfin, if_pos hfin]
    rw [pt_reverse r (r.length - 2) (by omega), pt_reverse r (r.length - 1) (by omega),
      pt_reverse r 0 (by omega), pt_reverse r 1 (by omega)]
    have e1 : r.length - 1 - (r.length - 2) = 1 := by omega
    have e2 : r.length - 1 - (r.length - 1) = 0 := by omega
    have e3 : r.length - 1 - 0 = r.length - 1 := by omega
    have e4 : r.length - 1 - 1 = r.length - 2 := by omega
    rw [e1, e2, e3, e4]
  · rw [if_neg hfin, if_neg hfin]
    rw [pt_reverse r k (by omega), pt_reverse r (k + 1) (by omega),
      pt_reverse r (k + 2) (by omega)]
    have e1 : r.length - 1 - (k + 1) = r.length - 2 - k := by omega
    have e2 : r.length - 1 - (k + 2) = r.length - 3 - k := by omega
    rw [e1, e2]

theorem turning_function_raw_rev_eq (r : List point) :
    turning_function_raw_rev r = turning_function_raw r.reverse := by
  unfold turning_function_raw turning_function_raw_rev
  have hn : r.reverse.length = r.length := by simp
  rw [hn]
  have hmap : (List.range (r.length - 1)).map (raw_entry_rev r)
      = (List.range (r.length - 1)).map (raw_entry r.reverse) := by
    apply List.map_congr_left
    intro k hk
    exact raw_entry_rev_eq r k (List.mem_range.mp hk)
  rw [hmap]

theorem build_turning_function_rev_eq (r : List point) :
    build_turning_function_rev r = build_turning_function r.reverse := by
  unfold build_turning_function build_turning_function_rev
  rw [turning_function_raw_rev_eq]

theorem dig_update_self (t : TurnFunc ℝ) (h : t.digitisation_direction = DigDir.CCW) :
    { t with digitisation_direction := DigDir.CCW } = t := by
  cases t
  simp_all

/-- With the `ccw` keyword present, a ring and its reversal produce the same
canonical turn function: whichever of the two is clockwise is redone by
walking its ring in reverse order, which is exactly the forward construction
on the other ring. -/
theorem turning_function_reverse_eq (r : List point)
    (h : (roundHalfEven (build_turning_function r).angles.sum = 360 ∧
          roundHalfEven (build_turning_function r.reverse).angles.sum = -360) ∨
         (roundHalfEven (build_turning_function r).angles.sum = -360 ∧
          roundHalfEven (build_turning_function r.reverse).angles.sum = 360)) :
    turning_function r (some true) = turning_function r.reverse (some true) := by
  rcases h with ⟨h1, h2⟩ | ⟨h1, h2⟩
  · unfold turning_function
    simp only [Option.isSome_some, eq_self_iff_true, if_true]
    rw [if_neg (by rw [h1]; omega), if_pos h2]
    rw [build_turning_function_rev_eq, List.reverse_reverse]
    exact (dig_update_self _ (build_turning_function_dig r)).symm
  · unfold turning_function
    simp only [Option.isSome_some, eq_self_iff_true, if_true]
    rw [if_pos h1, if_neg (by rw [h2]; omega)]
    rw [build_turning_function_rev_eq]
    exact dig_update_self _ (build_turning_function_dig _)

theorem roundHalfEven_zero : roundHalfEven (0 : α) = 0 := by
  unfold roundHalfEven
  norm_num

/-- C1.  Direction invariance: for a ring and its reverse-winding copy whose
code-level turn sums round to +360 and −360 (one counter-clockwise, the other
clockwise — the code's criterion for a validly digitised simple polygon),
`turning_function_distance` is exactly 0: the `ccw=True` canonicalisation maps
both rings to the same turn function, and aligning a turn function with
itself costs nothing. -/
theorem c1_direction_invariance (r : List point)
    (h : (roundHalfEven (build_turning_function r).angles.sum = 360 ∧
          roundHalfEven (build_turning_function r.reverse).angles.sum = -360) ∨
         (roundHalfEven (build_turning_function r).angles.sum = -360 ∧
          roundHalfEven (build_turning_function r.reverse).angles.sum = 360)) :
    turning_function_distance r r.reverse = some 0 := by
  have heq := turning_function_reverse_eq r h
  have hang : (turning_function r (some true)).angles ≠ [] := by
    rcases h with ⟨h1, h2⟩ | ⟨h1, h2⟩
    · have ht : turning_function r (some true) = build_turning_function r := by
        unfold turning_function
        rw [if_neg (by rw [h1]; omega)]
      rw [ht]
      intro hx
      rw [hx] at h1
      simp [roundHalfEven_zero] at h1
    · have ht : turning_function r (some true)
          = { build_turning_function_rev r with digitisation_direction := DigDir.CCW } := by
        unfold turning_function
        simp only [Option.isSome_some, eq_self_iff_true, if_true]
        rw [if_pos h1]
      rw [ht]
      intro hx
      have hx' : (build_turning_function r.reverse).angles = [] := by
        rw [← build_turning_function_rev_eq]
        exact hx
      rw [hx'] at h2
      simp [roundHalfEven_zero] at h2
  have hpar := turning_function_par r (some true)
  have hne : (turning_function r (some true)).lengths ≠ [] := by
    intro hx
    apply hang
    rw [hx] at hpar
    simpa using List.length_eq_zero.mp hpar
  exact tfd_self r r.reverse heq hpar hne

/-! ### Claim C2: scale invariance -/

theorem pt_scale (s : ℝ) (r : List point) (i : Nat) :
    pt (scale_polygon s r) i = ⟨s * (pt r i).x, s * (pt r i).y⟩ := by
  unfold pt scale_polygon
  rw [List.getD_eq_getElem?_getD, List.getD_eq_getElem?_getD, List.getElem?_map]
  cases hx : r[i]? with
  | none => simp
  | some p => simp

theorem length_scale (s : ℝ) (hs : 0 ≤ s) (A B : point) :
    line_vector.length ⟨⟨s * A.x, s * A.y⟩, ⟨s * B.x, s * B.y⟩⟩ =
      s * line_vector.length ⟨A, B⟩ := by
  unfold line_vector.length
  have h : (s * B.x - s * A.x) ^ 2 + (s * B.y - s * A.y) ^ 2
      = s ^ 2 * ((B.x - A.x) ^ 2 + (B.y - A.y) ^ 2) := by ring
  rw [h, Real.sqrt_mul (by positivity), Real.sqrt_sq hs]

theorem angle_scale (s : ℝ) (hs : 0 < s) (A B C D : point) :
    line_vector.angle_to_vector ⟨⟨s * A.x, s * A.y⟩, ⟨s * B.x, s * B.y⟩⟩
        ⟨⟨s * C.x, s * C.y⟩, ⟨s * D.x, s * D.y⟩⟩
      = line_vector.angle_to_vector ⟨A, B⟩ ⟨C, D⟩ := by
  unfold line_vector.angle_to_vector
  rw [length_scale s hs.le A B, length_scale s hs.le C D]
  have hnum : (s * B.x - s * A.x) * (s * D.x - s * C.x) +
      (s * B.y - s * A.y) * (s * D.y - s * C.y)
      = s ^ 2 * ((B.x - A.x) * (D.x - C.x) + (B.y - A.y) * (D.y - C.y)) := by ring
  have hden : s * line_vector.length ⟨A, B⟩ * (s * line_vector.length ⟨C, D⟩)
      = s ^ 2 * (line_vector.length ⟨A, B⟩ * line_vector.length ⟨C, D⟩) := by ring
  rw [hnum, hden, mul_div_mul_left _ _ (by positivity : (s:ℝ) ^ 2 ≠ 0)]

theorem turn_entry_scale (s : ℝ) (hs : 0 < s) (P Q C D : point)
    (hd : (turn_entry ⟨⟨s * P.x, s * P.y⟩, ⟨s * Q.x, s * Q.y⟩⟩
        ⟨⟨s * C.x, s * C.y⟩, ⟨s * D.x, s * D.y⟩⟩).2.1
        = (turn_entry ⟨P, Q⟩ ⟨C, D⟩).2.1) :
    turn_entry ⟨⟨s * P.x, s * P.y⟩, ⟨s * Q.x, s * Q.y⟩⟩
        ⟨⟨s * C.x, s * C.y⟩, ⟨s * D.x, s * D.y⟩⟩
      = ((turn_entry ⟨P, Q⟩ ⟨C, D⟩).1, (turn_entry ⟨P, Q⟩ ⟨C, D⟩).2.1,
          s * (turn_entry ⟨P, Q⟩ ⟨C, D⟩).2.2) := by
  unfold turn_entry at hd ⊢
  cases hS : line_vector.point_on_where ⟨⟨s * P.x, s * P.y⟩, ⟨s * Q.x, s * Q.y⟩⟩
      (⟨⟨s * C.x, s * C.y⟩, ⟨s * D.x, s * D.y⟩⟩ : line_vector).p2 <;>
    cases hO : line_vector.point_on_where ⟨P, Q⟩ ((⟨C, D⟩ : line_vector)).p2 <;>
      simp only [hS, hO] at hd ⊢ <;>
      simp_all [angle_scale s hs P Q C D, length_scale s hs.le C D]

theorem raw_entry_scale (s : ℝ) (hs : 0 < s) (r : List point) (k : Nat)
    (hd : (raw_entry (scale_polygon s r) k).2.1 = (raw_entry r k).2.1) :
    raw_entry (scale_polygon s r) k
      = ((raw_entry r k).1, (raw_entry r k).2.1, s * (raw_entry r k).2.2) := by
  have hlen : (scale_polygon s r).length = r.length := by simp [scale_polygon]
  unfold raw_entry at hd ⊢
  rw [hlen] at hd ⊢
  by_cases hfin : k = r.length - 2
  · simp only [if_pos hfin] at hd ⊢
    rw [pt_scale, pt_scale, pt_scale, pt_scale] at hd ⊢
    exact turn_entry_scale s hs _ _ _ _ hd
  · simp only [if_neg hfin] at hd ⊢
    rw [pt_scale, pt_scale, pt_scale] at hd ⊢
    exact turn_entry_scale s hs _ _ _ _ hd

theorem turning_function_raw_scale (s : ℝ) (hs : 0 < s) (r : List point)
    (hd : ∀ k, k < r.length - 1 →
      (raw_entry (scale_polygon s r) k).2.1 = (raw_entry r k).2.1) :
    turning_function_raw (scale_polygon s r) =
      { turning_function_raw r with
          lengths := (turning_function_raw r).lengths.map (fun l => s * l) } := by
  unfold turning_function_raw
  have hlen : (scale_polygon s r).length = r.length := by simp [scale_polygon]
  rw [hlen]
  have hmap : (List.range (r.length - 1)).map (raw_entry (scale_polygon s r))
      = (List.range (r.length - 1)).map
          (fun k => ((raw_entry r k).1, (raw_entry r k).2.1, s * (raw_entry r k).2.2)) := by
    apply List.map_congr_left
    intro k hk
    exact raw_entry_scale s hs r k (hd k (List.mem_range.mp hk))
  rw [hmap]
  simp [List.map_map, Function.comp]

theorem sum_map_mul (s : ℝ) : ∀ (l : List ℝ), (l.map (fun v => s * v)).sum = s * l.sum := by
  intro l
  induction l with
  | nil => simp
  | cons x xs ih => simp [ih]; ring

theorem normalise_lengths_scale (s : ℝ) (hs : s ≠ 0) (t : TurnFunc ℝ) :
    normalise_lengths { t with lengths := t.lengths.map (fun l => s * l) }
      = normalise_lengths t := by
  unfold normalise_lengths
  simp only [List.map_map, sum_map_mul]
  congr 1
  apply List.map_congr_left
  intro l _
  simp only [Function.comp_apply]
  exact mul_div_mul_left l t.lengths.sum hs

theorem build_turning_function_scale (s : ℝ) (hs : 0 < s) (r : List point)
    (hd : ∀ k, k < r.length - 1 →
      (raw_entry (scale_polygon s r) k).2.1 = (raw_entry r k).2.1) :
    build_turning_function (scale_polygon s r) = build_turning_function r := by
  unfold build_turning_function
  rw [turning_function_raw_scale s hs r hd, normalise_lengths_scale s (ne_of_gt hs)]

theorem turning_function_scale (s : ℝ) (hs : 0 < s) (r : List point) (c : Option Bool)
    (hd : ∀ k, k < r.length - 1 →
      (raw_entry (scale_polygon s r) k).2.1 = (raw_entry r k).2.1)
    (hd' : ∀ k, k < r.length - 1 →
      (raw_entry (scale_polygon s r.reverse) k).2.1 = (raw_entry r.reverse k).2.1) :
    turning_function (scale_polygon s r) c = turning_function r c := by
  have hb := build_turning_function_scale s hs r hd
  have hcomm : (scale_polygon s r).reverse = scale_polygon s r.reverse := by
    simp [scale_polygon, List.map_reverse]
  have hbrev : build_turning_function ((scale_polygon s r).reverse)
      = build_turning_function r.reverse := by
    rw [hcomm]
    exact build_turning_function_scale s hs r.reverse (by simpa using hd')
  unfold turning_function
  rw [hb, build_turning_function_rev_eq, build_turning_function_rev_eq, hbrev]

/-- C2, amended.  Scale invariance holds under the proviso the unconditional
claim lacks: the 3-decimal rounding of the orientation cross products must
classify every turn of the scaled ring (and of its reversal) the same way as
in the original (`hd`/`hd'` — scaling multiplies the cross products by `s²`
before rounding, which can re-classify a turn), and no turn of the original
may classify collinear (`hnd`/`hnd'` — with `hd`/`hd'` this carries over to
the scaled copy and keeps the source's collinear-merge loop terminating; see
the counterexample for the divergent case).  Under the proviso the cosines
and the normalised lengths are exactly scale-free and the distance is 0. -/
theorem c2_scale_invariance (r : List point) (s : ℝ) (hs : 0 < s)
    (hd : ∀ k, k < r.length - 1 →
      (raw_entry (scale_polygon s r) k).2.1 = (raw_entry r k).2.1)
    (hd' : ∀ k, k < r.length - 1 →
      (raw_entry (scale_polygon s r.reverse) k).2.1 = (raw_entry r.reverse k).2.1)
    (hnd : TurnDir.Dash ∉ (turning_function_raw r).direction)
    (hnd' : TurnDir.Dash ∉ (turning_function_raw r.reverse).direction)
    (hne : (turning_function r (some true)).angles ≠ []) :
    turning_function_distance r (scale_polygon s r) = some 0 := by
  have heq : turning_function r (some true)
      = turning_function (scale_polygon s r) (some true) :=
    (turning_function_scale s hs r (some true) hd hd').symm
  have hpar := turning_function_par r (some true)
  have hlne : (turning_function r (some true)).lengths ≠ [] := by
    intro hx
    apply hne
    rw [hx] at hpar
    simpa using List.length_eq_zero.mp hpar
  exact tfd_self r (scale_polygon s r) heq hpar hlne

/-! ### Concrete squares: evaluating the turning function on axis-aligned
squares, for the direction/scale-invariance witnesses and the ccw flag -/

noncomputable def ccwSq (a : ℝ) : List point := [⟨0, 0⟩, ⟨a, 0⟩, ⟨a, a⟩, ⟨0, a⟩, ⟨0, 0⟩]

noncomputable def cwSq (a : ℝ) : List point := [⟨0, 0⟩, ⟨0, a⟩, ⟨a, a⟩, ⟨a, 0⟩, ⟨0, 0⟩]

theorem pow_left_eval (v : line_vector) (px : point) (c : ℝ) (hc : 0 < c)
    (h : (v.p2.x - v.p1.x) * (px.y - v.p2.y) - (v.p2.y - v.p1.y) * (px.x - v.p2.x) = c)
    (hr : round3 c = c) :
    v.point_on_where px = Side.LEFT := by
  unfold line_vector.point_on_where
  rw [h, hr, if_pos hc]

theorem pow_right_eval (v : line_vector) (px : point) (c : ℝ) (hc : c < 0)
    (h : (v.p2.x - v.p1.x) * (px.y - v.p2.y) - (v.p2.y - v.p1.y) * (px.x - v.p2.x) = c)
    (hr : round3 c = c) :
    v.point_on_where px = Side.RIGHT := by
  unfold line_vector.point_on_where
  rw [h, hr, if_neg (by linarith), if_pos hc]

theorem angle90 (v w : line_vector)
    (hdot : (v.p2.x - v.p1.x) * (w.p2.x - w.p1.x) +
      (v.p2.y - v.p1.y) * (w.p2.y - w.p1.y) = 0) :
    v.angle_to_vector w = 90 := by
  unfold line_vector.angle_to_vector
  rw [hdot, zero_div, round3_of_int_mul 0 0 (by norm_num), Real.arccos_zero]
  field_simp
  ring

theorem len_eval (w : line_vector) (c : ℝ) (hc : 0 ≤ c)
    (h : (w.p2.x - w.p1.x) ^ 2 + (w.p2.y - w.p1.y) ^ 2 = c ^ 2) :
    w.length = c := by
  unfold line_vector.length
  rw [h, Real.sqrt_sq hc]

theorem turn_entry_L (vx w : line_vector) (c : ℝ)
    (hL : vx.point_on_where w.p2 = Side.LEFT) (hA : vx.angle_to_vector w = 90)
    (hlen : w.length = c) : turn_entry vx w = (90, TurnDir.L, c) := by
  unfold turn_entry
  rw [hL, hA, hlen]

theorem turn_entry_R (vx w : line_vector) (c : ℝ)
    (hR : vx.point_on_where w.p2 = Side.RIGHT) (hA : vx.angle_to_vector w = 90)
    (hlen : w.length = c) : turn_entry vx w = (-90, TurnDir.R, c) := by
  unfold turn_entry
  rw [hR, hA, hlen]

theorem raw_entry_ccwSq (a : ℝ) (ha : 0 < a) (hr : round3 (a ^ 2) = a ^ 2) :
    ∀ k, k < 4 → raw_entry (ccwSq a) k = (90, TurnDir.L, a) := by
  have hn : (ccwSq a).length = 5 := by simp [ccwSq]
  have hp0 : pt (ccwSq a) 0 = ⟨0, 0⟩ := by simp [pt, ccwSq]
  have hp1 : pt (ccwSq a) 1 = ⟨a, 0⟩ := by simp [pt, ccwSq]
  have hp2 : pt (ccwSq a) 2 = ⟨a, a⟩ := by simp [pt, ccwSq]
  have hp3 : pt (ccwSq a) 3 = ⟨0, a⟩ := by simp [pt, ccwSq]
  have hp4 : pt (ccwSq a) 4 = ⟨0, 0⟩ := by simp [pt, ccwSq]
  intro k hk
  interval_cases k
  · unfold raw_entry
    rw [hn]
    rw [if_neg (by norm_num), hp0, hp1, hp2]
    exact turn_entry_L _ _ a
      (pow_left_eval _ _ (a ^ 2) (by positivity) (by ring) hr)
      (angle90 _ _ (by ring)) (len_eval _ a ha.le (by ring))
  · unfold raw_entry
    rw [hn]
    rw [if_neg (by norm_num), hp1, hp2, hp3]
    exact turn_entry_L _ _ a
      (pow_left_eval _ _ (a ^ 2) (by positivity) (by ring) hr)
      (angle90 _ _ (by ring)) (len_eval _ a ha.le (by ring))
  · unfold raw_entry
    rw [hn]
    rw [if_neg (by norm_num), hp2, hp3, hp4]
    exact turn_entry_L _ _ a
      (pow_left_eval _ _ (a ^ 2) (by positivity) (by ring) hr)
      (angle90 _ _ (by ring)) (len_eval _ a ha.le (by ring))
  · unfold raw_entry
    rw [hn]
    rw [if_pos (by norm_num), hp3, hp4, hp0, hp1]
    exact turn_entry_L _ _ a
      (pow_left_eval _ _ (a ^ 2) (by positivity) (by ring) hr)
      (angle90 _ _ (by ring)) (len_eval _ a ha.le (by ring))

theorem raw_entry_cwSq (a : ℝ) (ha : 0 < a) (hr : round3 (-(a ^ 2)) = -(a ^ 2)) :
    ∀ k, k < 4 → raw_entry (cwSq a) k = (-90, TurnDir.R, a) := by
  have hn : (cwSq a).length = 5 := by simp [cwSq]
  have hp0 : pt (cwSq a) 0 = ⟨0, 0⟩ := by simp [pt, cwSq]
  have hp1 : pt (cwSq a) 1 = ⟨0, a⟩ := by simp [pt, cwSq]
  have hp2 : pt (cwSq a) 2 = ⟨a, a⟩ := by simp [pt, cwSq]
  have hp3 : pt (cwSq a) 3 = ⟨a, 0⟩ := by simp [pt, cwSq]
  have hp4 : pt (cwSq a) 4 = ⟨0, 0⟩ := by simp [pt, cwSq]
  intro k hk
  interval_cases k
  · unfold raw_entry
    rw [hn]
    rw [if_neg (by norm_num), hp0, hp1, hp2]
    exact turn_entry_R _ _ a
      (pow_right_eval _ _ (-(a ^ 2)) (by nlinarith) (by ring) hr)
      (angle90 _ _ (by ring)) (len_eval _ a ha.le (by ring))
  · unfold raw_entry
    rw [hn]
    rw [if_neg (by norm_num), hp1, hp2, hp3]
    exact turn_entry_R _ _ a
      (pow_right_eval _ _ (-(a ^ 2)) (by nlinarith) (by ring) hr)
      (angle90 _ _ (by ring)) (len_eval _ a ha.le (by ring))
  · unfold raw_entry
    rw [hn]
    rw [if_neg (by norm_num), hp2, hp3, hp4]
    exact turn_entry_R _ _ a
      (pow_right_eval _ _ (-(a ^ 2)) (by nlinarith) (by ring) hr)
      (angle90 _ _ (by ring)) (len_eval _ a ha.le (by ring))
  · unfold raw_entry
    rw [hn]
    rw [if_pos (by norm_num), hp3, hp4, hp0, hp1]
    exact turn_entry_R _ _ a
      (pow_right_eval _ _ (-(a ^ 2)) (by nlinarith) (by ring) hr)
      (angle90 _ _ (by ring)) (len_eval _ a ha.le (by ring))

theorem raw_ccwSq (a : ℝ) (ha : 0 < a) (hr : round3 (a ^ 2) = a ^ 2) :
    turning_function_raw (ccwSq a) =
      ⟨[90, 90, 90, 90], [a, a, a, a], [.L, .L, .L, .L], .CCW⟩ := by
  have e0 := raw_entry_ccwSq a ha hr 0 (by norm_num)
  have e1 := raw_entry_ccwSq a ha hr 1 (by norm_num)
  have e2 := raw_entry_ccwSq a ha hr 2 (by norm_num)
  have e3 := raw_entry_ccwSq a ha hr 3 (by norm_num)
  unfold turning_function_raw
  rw [show (ccwSq a).length = 5 by simp [ccwSq]]
  rw [show List.range (5 - 1) = [0, 1, 2, 3] from rfl]
  simp [e0, e1, e2, e3]

theorem raw_cwSq (a : ℝ) (ha : 0 < a) (hr : round3 (-(a ^ 2)) = -(a ^ 2)) :
    turning_function_raw (cwSq a) =
      ⟨[-90, -90, -90, -90], [a, a, a, a], [.R, .R, .R, .R], .CCW⟩ := by
  have e0 := raw_entry_cwSq a ha hr 0 (by norm_num)
  have e1 := raw_entry_cwSq a ha hr 1 (by norm_num)
  have e2 := raw_entry_cwSq a ha hr 2 (by norm_num)
  have e3 := raw_entry_cwSq a ha hr 3 (by norm_num)
  unfold turning_function_raw
  rw [show (cwSq a).length = 5 by simp [cwSq]]
  rw [show List.range (5 - 1) = [0, 1, 2, 3] from rfl]
  simp [e0, e1, e2, e3]

theorem build_ccwSq (a : ℝ) (ha : 0 < a) (hr : round3 (a ^ 2) = a ^ 2) :
    build_turning_function (ccwSq a) =
      ⟨[90, 90, 90, 90], [1/4, 1/4, 1/4, 1/4], [.L, .L, .L, .L], .CCW⟩ := by
  unfold build_turning_function
  rw [raw_ccwSq a ha hr]
  have hnorm : normalise_lengths ⟨[90, 90, 90, 90], [a, a, a, a], [.L, .L, .L, .L], .CCW⟩
      = ⟨[90, 90, 90, 90], [1/4, 1/4, 1/4, 1/4], [.L, .L, .L, .L], .CCW⟩ := by
    unfold normalise_lengths
    have hq : a / (a + (a + (a + a))) = 4⁻¹ := by
      rw [show a + (a + (a + a)) = 4 * a by ring]
      rw [div_eq_iff (by positivity)]
      ring
    simp [hq]
  rw [hnorm]
  have hL : (TurnDir.L = TurnDir.Dash) = False := by simp
  norm_num [postProcessColinearity, backFold, addAt, lastNonDash, keepNonDash,
    List.range', List.find?, List.filter_cons, hL]

theorem build_cwSq (a : ℝ) (ha : 0 < a) (hr : round3 (-(a ^ 2)) = -(a ^ 2)) :
    build_turning_function (cwSq a) =
      ⟨[-90, -90, -90, -90], [1/4, 1/4, 1/4, 1/4], [.R, .R, .R, .R], .CCW⟩ := by
  unfold build_turning_function
  rw [raw_cwSq a ha hr]
  have hnorm : normalise_lengths ⟨[-90, -90, -90, -90], [a, a, a, a], [.R, .R, .R, .R], .CCW⟩
      = ⟨[-90, -90, -90, -90], [1/4, 1/4, 1/4, 1/4], [.R, .R, .R, .R], .CCW⟩ := by
    unfold normalise_lengths
    have hq : a / (a + (a + (a + a))) = 4⁻¹ := by
      rw [show a + (a + (a + a)) = 4 * a by ring]
      rw [div_eq_iff (by positivity)]
      ring
    simp [hq]
  rw [hnorm]
  have hR : (TurnDir.R = TurnDir.Dash) = False := by simp
  norm_num [postProcessColinearity, backFold, addAt, lastNonDash, keepNonDash,
    List.range', List.find?, List.filter_cons, hR]

theorem sum_build_ccwSq (a : ℝ) (ha : 0 < a) (hr : round3 (a ^ 2) = a ^ 2) :
    roundHalfEven (build_turning_function (ccwSq a)).angles.sum = 360 := by
  rw [build_ccwSq a ha hr]
  have hsum : (⟨[90, 90, 90, 90], [1/4, 1/4, 1/4, 1/4], [.L, .L, .L, .L],
      .CCW⟩ : TurnFunc ℝ).angles.sum = ((360 : ℤ) : ℝ) := by norm_num
  rw [hsum, roundHalfEven_intCast]

theorem sum_build_cwSq (a : ℝ) (ha : 0 < a) (hr : round3 (-(a ^ 2)) = -(a ^ 2)) :
    roundHalfEven (build_turning_function (cwSq a)).angles.sum = -360 := by
  rw [build_cwSq a ha hr]
  have hsum : (⟨[-90, -90, -90, -90], [1/4, 1/4, 1/4, 1/4], [.R, .R, .R, .R],
      .CCW⟩ : TurnFunc ℝ).angles.sum = ((-360 : ℤ) : ℝ) := by norm_num
  rw [hsum, roundHalfEven_intCast]

theorem ccwSq_reverse (a : ℝ) : (ccwSq a).reverse = cwSq a := rfl

theorem turning_function_ccwSq (a : ℝ) (ha : 0 < a) (hr : round3 (a ^ 2) = a ^ 2)
    (ccw : Option Bool) :
    turning_function (ccwSq a) ccw =
      ⟨[90, 90, 90, 90], [1/4, 1/4, 1/4, 1/4], [.L, .L, .L, .L], .CCW⟩ := by
  unfold turning_function
  rw [if_neg (by rw [sum_build_ccwSq a ha hr]; norm_num)]
  exact build_ccwSq a ha hr

/-- C9: the source tests only the presence of the `ccw` keyword, so calling
`turning_function` with `ccw=False` behaves exactly like `ccw=True` (the
construction is redone in reverse, yielding a CCW-marked function) and
differs from omitting the keyword, contradicting the documented
`ccw: bool = False` default semantics.  Shown on the clockwise square
`[(0,0),(0,5),(5,5),(5,0),(0,0)]`. -/
theorem c9_ccw_kwarg_presence :
    turning_function (cwSq 5) (some false) = turning_function (cwSq 5) (some true) ∧
    turning_function (cwSq 5) (some false) ≠ turning_function (cwSq 5) none := by
  have hr : round3 (-((5:ℝ) ^ 2)) = -((5:ℝ) ^ 2) :=
    round3_of_int_mul _ (-25000) (by norm_num)
  have hsum := sum_build_cwSq 5 (by norm_num) hr
  constructor
  · simp [turning_function]
  · intro h
    unfold turning_function at h
    rw [if_pos hsum, if_pos hsum] at h
    simp only [Option.isSome_some, Option.isSome_none, if_true, Bool.false_eq_true,
      if_false] at h
    have hdig := congrArg TurnFunc.digitisation_direction h
    simp at hdig

/-- C1 witness: the CCW square `[(0,0),(5,0),(5,5),(0,5),(0,0)]` against its
clockwise reversal has turning-function distance exactly 0. -/
theorem c1_direction_invariance_witness :
    turning_function_distance (ccwSq 5) ((ccwSq 5).reverse) = some 0 := by
  have hr : round3 ((5:ℝ) ^ 2) = (5:ℝ) ^ 2 :=
    round3_of_int_mul _ 25000 (by norm_num)
  have hr' : round3 (-((5:ℝ) ^ 2)) = -((5:ℝ) ^ 2) :=
    round3_of_int_mul _ (-25000) (by norm_num)
  exact c1_direction_invariance (ccwSq 5)
    (Or.inl ⟨sum_build_ccwSq 5 (by norm_num) hr,
      by rw [ccwSq_reverse]; exact sum_build_cwSq 5 (by norm_num) hr'⟩)

/-- A cross product that rounds to 0 classifies the probe point `COLINEAR`. -/
theorem pow_colinear_eval (v : line_vector) (px : point) (c : ℝ)
    (h : (v.p2.x - v.p1.x) * (px.y - v.p2.y) - (v.p2.y - v.p1.y) * (px.x - v.p2.x) = c)
    (hr : round3 c = 0) :
    v.point_on_where px = Side.COLINEAR := by
  unfold line_vector.point_on_where
  rw [h, hr]
  norm_num

/-- A `COLINEAR` classification records angle 0 and direction `'-'`. -/
theorem turn_entry_dash (vx w : line_vector) (c : ℝ)
    (hC : vx.point_on_where w.p2 = Side.COLINEAR) (hlen : w.length = c) :
    turn_entry vx w = (0, TurnDir.Dash, c) := by
  unfold turn_entry
  rw [hC, hlen]

/-- On a square so small that every cross product `a²` rounds to 0, every
entry of the construction classifies collinear. -/
theorem raw_entry_dashSq (a : ℝ) (ha : 0 ≤ a) (hr : round3 (a ^ 2) = 0) :
    ∀ k, k < 4 → raw_entry (ccwSq a) k = (0, TurnDir.Dash, a) := by
  have hn : (ccwSq a).length = 5 := by simp [ccwSq]
  have hp0 : pt (ccwSq a) 0 = ⟨0, 0⟩ := by simp [pt, ccwSq]
  have hp1 : pt (ccwSq a) 1 = ⟨a, 0⟩ := by simp [pt, ccwSq]
  have hp2 : pt (ccwSq a) 2 = ⟨a, a⟩ := by simp [pt, ccwSq]
  have hp3 : pt (ccwSq a) 3 = ⟨0, a⟩ := by simp [pt, ccwSq]
  have hp4 : pt (ccwSq a) 4 = ⟨0, 0⟩ := by simp [pt, ccwSq]
  intro k hk
  interval_cases k
  · unfold raw_entry
    rw [hn]
    rw [if_neg (by norm_num), hp0, hp1, hp2]
    exact turn_entry_dash _ _ a
      (pow_colinear_eval _ _ (a ^ 2) (by ring) hr) (len_eval _ a ha (by ring))
  · unfold raw_entry
    rw [hn]
    rw [if_neg (by norm_num), hp1, hp2, hp3]
    exact turn_entry_dash _ _ a
      (pow_colinear_eval _ _ (a ^ 2) (by ring) hr) (len_eval _ a ha (by ring))
  · unfold raw_entry
    rw [hn]
    rw [if_neg (by norm_num), hp2, hp3, hp4]
    exact turn_entry_dash _ _ a
      (pow_colinear_eval _ _ (a ^ 2) (by ring) hr) (len_eval _ a ha (by ring))
  · unfold raw_entry
    rw [hn]
    rw [if_pos (by norm_num), hp3, hp4, hp0, hp1]
    exact turn_entry_dash _ _ a
      (pow_colinear_eval _ _ (a ^ 2) (by ring) hr) (len_eval _ a ha (by ring))

/-- The raw turn function of an all-collinear-rounded square. -/
theorem raw_dashSq (a : ℝ) (ha : 0 ≤ a) (hr : round3 (a ^ 2) = 0) :
    turning_function_raw (ccwSq a) =
      ⟨[0, 0, 0, 0], [a, a, a, a], [.Dash, .Dash, .Dash, .Dash], .CCW⟩ := by
  have e0 := raw_entry_dashSq a ha hr 0 (by norm_num)
  have e1 := raw_entry_dashSq a ha hr 1 (by norm_num)
  have e2 := raw_entry_dashSq a ha hr 2 (by norm_num)
  have e3 := raw_entry_dashSq a ha hr 3 (by norm_num)
  unfold turning_function_raw
  rw [show (ccwSq a).length = 5 by simp [ccwSq]]
  rw [show List.range (5 - 1) = [0, 1, 2, 3] from rfl]
  simp [e0, e1, e2, e3]

/-- C2, counterexample.  The claim quantifies over every simple polygon and
every scale `s > 0`, but scaling its own square `[(0,0),(5,0),(5,5),(0,5),
(0,0)]` by `s = 1/1000` makes every orientation cross product
`(1/200)² = 0.000025`, which `round(·, 3)` sends to 0: every vertex of the
scaled square classifies `'-'` (collinear), and on the resulting all-`'-'`
record the source's collinear-merge fold-target search never terminates
(`merge_hangs`), so `turning_function_distance` hangs instead of returning 0. -/
theorem c2_counterexample :
    turning_function_raw (scale_polygon (1/1000) (ccwSq 5)) =
      ⟨[0, 0, 0, 0], [1/200, 1/200, 1/200, 1/200], [.Dash, .Dash, .Dash, .Dash], .CCW⟩ ∧
    merge_hangs (normalise_lengths
      (turning_function_raw (scale_polygon (1/1000) (ccwSq 5)))) = true := by
  have hscale : scale_polygon (1/1000) (ccwSq 5) = ccwSq (1/200) := by
    simp [scale_polygon, ccwSq]; norm_num
  have hr : round3 (((1:ℝ)/200) ^ 2) = 0 := round3_small _ (by norm_num) (by norm_num)
  have hraw := raw_dashSq (1/200) (by norm_num) hr
  constructor
  · rw [hscale, hraw]
  · rw [hscale, hraw]
    simp [merge_hangs, normalise_lengths, lastNonDash, List.range', List.find?]

/-- C2 witness: the square `[(0,0),(5,0),(5,5),(0,5),(0,0)]` against itself
scaled by 10 has turning-function distance exactly 0. -/
theorem c2_scale_invariance_witness :
    turning_function_distance (ccwSq 5) (scale_polygon 10 (ccwSq 5)) = some 0 := by
  have hr5 : round3 ((5:ℝ) ^ 2) = (5:ℝ) ^ 2 :=
    round3_of_int_mul _ 25000 (by norm_num)
  have hr50 : round3 ((50:ℝ) ^ 2) = (50:ℝ) ^ 2 :=
    round3_of_int_mul _ 2500000 (by norm_num)
  have hr5' : round3 (-((5:ℝ) ^ 2)) = -((5:ℝ) ^ 2) :=
    round3_of_int_mul _ (-25000) (by norm_num)
  have hr50' : round3 (-((50:ℝ) ^ 2)) = -((50:ℝ) ^ 2) :=
    round3_of_int_mul _ (-2500000) (by norm_num)
  have hscale : scale_polygon 10 (ccwSq 5) = ccwSq 50 := by
    simp [scale_polygon, ccwSq]; norm_num
  have hscale' : scale_polygon 10 (cwSq 5) = cwSq 50 := by
    simp [scale_polygon, cwSq]; norm_num
  have hlen : (ccwSq (5:ℝ)).length - 1 = 4 := by simp [ccwSq]
  refine c2_scale_invariance (ccwSq 5) 10 (by norm_num) ?_ ?_ ?_ ?_ ?_
  · intro k hk
    rw [hlen] at hk
    rw [hscale, raw_entry_ccwSq 50 (by norm_num) hr50 k hk,
      raw_entry_ccwSq 5 (by norm_num) hr5 k hk]
  · intro k hk
    rw [hlen] at hk
    rw [ccwSq_reverse, hscale', raw_entry_cwSq 50 (by norm_num) hr50' k hk,
      raw_entry_cwSq 5 (by norm_num) hr5' k hk]
  · rw [raw_ccwSq 5 (by norm_num) hr5]
    decide
  · rw [ccwSq_reverse, raw_cwSq 5 (by norm_num) hr5']
    decide
  · rw [turning_function_ccwSq 5 (by norm_num) hr5]
    simp

end X2Polygons
